import Mathlib

/-!
# Single-byte collations of `go/mysql/collations/8bit.go`

A shallow embedding of the three collation variants of the file
(`Collation_binary`, `Collation_8bit_bin`, `Collation_8bit_simple_ci`) and of
the shared padding routine `weightStringPadingSimple`, followed by theorems
about their comparison and weight-string functions.

Modelling conventions.

* A Go `byte` is a `Fin 256`; a Go `int` is an `Int` (every subtraction of the
  file is between two non-negative lengths, two bytes, or a count and a
  length, far from the 64-bit range, so no wrap-around is modelled).
* A destination buffer is a `Slice`: its visible contents and its capacity.
  The read-only arguments (`left`, `right`, `src`, the `sort` table) are lists
  of bytes, i.e. slices whose capacity is their length.
* A run-time panic (index or slice bound out of range) is `none`.
* The capacity Go's `append` picks when it has to reallocate is decided by the
  runtime; it is the parameter `grow` (old capacity, required length).
* `PadToMax` is declared outside `8bit.go`; it is a parameter of the model.
  The helpers `minInt` and `collationBinary`, also declared outside
  `8bit.go`, are modelled from their description.
-/

namespace Collations

/-- A Go `byte`. -/
abbrev Byte := Fin 256

/-- A Go `[]byte` used as an append destination: contents and capacity. -/
structure Slice where
  data : List Byte
  cap : Nat
deriving DecidableEq, Repr

/-- The `nil` slice: no contents, capacity zero. -/
def Slice.nil : Slice := ⟨[], 0⟩

/-- Go's `len(s)`. -/
def Slice.len (s : Slice) : Nat := s.data.length

/-- Go's `append(dst, b)`: written in place when there is room, otherwise the
contents move to a backing array whose capacity the runtime chooses. -/
def appendByte (grow : Nat → Nat → Nat) (dst : Slice) (b : Byte) : Slice :=
  if dst.len + 1 ≤ dst.cap then ⟨dst.data ++ [b], dst.cap⟩
  else ⟨dst.data ++ [b], grow dst.cap (dst.len + 1)⟩

/-- Go's `append(dst, xs...)`. -/
def appendSlice (grow : Nat → Nat → Nat) (dst : Slice) (xs : List Byte) : Slice :=
  if dst.len + xs.length ≤ dst.cap then ⟨dst.data ++ xs, dst.cap⟩
  else ⟨dst.data ++ xs, grow dst.cap (dst.len + xs.length)⟩

/-- Go's slice expression `s[:k]` for an `int` bound `k`; it panics unless
`0 ≤ k ≤ cap(s)` (here `cap(s) = len(s)`). -/
def sliceTo (s : List Byte) (k : Int) : Option (List Byte) :=
  if 0 ≤ k ∧ k ≤ (s.length : Int) then some (s.take k.toNat) else none

/-- Modelled from the spec: the helper `minInt` is declared outside `8bit.go`;
it is the minimum of two `int`s ("a saturating minimum against input length"). -/
def minInt (a b : Int) : Int := if a < b then a else b

/-- The ASCII space, the literal `' '` of the source. -/
def spaceChar : Byte := 0x20

/-- The loop `for len(dst) < cap(dst) { dst = append(dst, padChar) }`, run for
at most `fuel` iterations. -/
def padToCapLoop (grow : Nat → Nat → Nat) (padChar : Byte) : Nat → Slice → Slice
  | 0, dst => dst
  | fuel + 1, dst =>
    if dst.len < dst.cap then padToCapLoop grow padChar fuel (appendByte grow dst padChar)
    else dst

/-- The loop `for numCodepoints > 0 { dst = append(dst, padChar); numCodepoints-- }`,
run for at most `fuel` iterations. -/
def padCountLoop (grow : Nat → Nat → Nat) (padChar : Byte) : Nat → Slice → Int → Slice
  | 0, dst, _ => dst
  | fuel + 1, dst, numCodepoints =>
    if numCodepoints > 0 then
      padCountLoop grow padChar fuel (appendByte grow dst padChar) (numCodepoints - 1)
    else dst

/-- The function `weightStringPadingSimple` of the source. Each loop gets the
number of iterations after which its condition is false (`cap - len`,
respectively `max numCodepoints 0`). -/
def weightStringPadingSimple (grow : Nat → Nat → Nat) (padChar : Byte) (dst : Slice)
    (numCodepoints : Int) (padToMax : Bool) : Slice :=
  if padToMax then padToCapLoop grow padChar (dst.cap - dst.len) dst
  else padCountLoop grow padChar numCodepoints.toNat dst numCodepoints

/-- The `switch numCodepoints` of the space-padding variants: the values of
`(numCodepoints, copyCodepoints, padToMax)` after it. -/
def switchPad (PadToMax : Int) (srcLen : Int) (numCodepoints : Int) : Int × Int × Bool :=
  if numCodepoints = 0 then (srcLen, srcLen, false)
  else if numCodepoints = PadToMax then (numCodepoints, srcLen, true)
  else (numCodepoints, minInt srcLen numCodepoints, false)

/-- The type `Collation_8bit_bin`; none of its fields is read by `WeightString`. -/
structure Collation_8bit_bin where
  sort : List Byte

/-- The method `(*Collation_8bit_bin).WeightString`. -/
def Collation_8bit_bin.WeightString (grow : Nat → Nat → Nat) (PadToMax : Int)
    (_c : Collation_8bit_bin) (dst : Slice) (src : List Byte) (numCodepoints : Int) :
    Option Slice :=
  match switchPad PadToMax src.length numCodepoints with
  | (numCodepoints, copyCodepoints, padToMax) =>
    match sliceTo src copyCodepoints with
    | none => none
    | some head =>
      some (weightStringPadingSimple grow spaceChar (appendSlice grow dst head)
        (numCodepoints - copyCodepoints) padToMax)

/-- The method `(*Collation_8bit_bin).WeightStringLen`. -/
def Collation_8bit_bin.WeightStringLen (_c : Collation_8bit_bin) (numBytes : Int) : Int :=
  numBytes

/-- The type `Collation_8bit_simple_ci`, with the `sort` table of the embedded
`simpletables`. -/
structure Collation_8bit_simple_ci where
  sort : List Byte

/-- The loop of `Collate` from index `i`, for at most `fuel` iterations: `none`
is an index out of range, `some (some r)` the `return r` inside the loop,
`some none` the loop running to its end. -/
def Collation_8bit_simple_ci.collateLoop (sortOrder left right : List Byte) (cmpLen : Nat) :
    Nat → Nat → Option (Option Int)
  | 0, _ => some none
  | fuel + 1, i =>
    if i < cmpLen then
      match left[i]?, right[i]? with
      | some l, some r =>
        match sortOrder[l.val]?, sortOrder[r.val]? with
        | some sortL, some sortR =>
          if sortL ≠ sortR then some (some ((sortL.val : Int) - (sortR.val : Int)))
          else collateLoop sortOrder left right cmpLen fuel (i + 1)
        | _, _ => none
      | _, _ => none
    else some none

/-- The method `(*Collation_8bit_simple_ci).Collate`. -/
def Collation_8bit_simple_ci.Collate (c : Collation_8bit_simple_ci) (left right : List Byte)
    (rightIsPrefix : Bool) : Option Int :=
  let sortOrder := c.sort
  let cmpLen := (minInt left.length right.length).toNat
  match Collation_8bit_simple_ci.collateLoop sortOrder left right cmpLen cmpLen 0 with
  | none => none
  | some (some r) => some r
  | some none =>
    if rightIsPrefix then
      match sliceTo left cmpLen with
      | none => none
      | some left => some ((left.length : Int) - (right.length : Int))
    else some ((left.length : Int) - (right.length : Int))

/-- The loop `for _, ch := range ... { dst = append(dst, sortOrder[ch]) }`. -/
def Collation_8bit_simple_ci.encodeLoop (grow : Nat → Nat → Nat) (sortOrder : List Byte) :
    List Byte → Slice → Option Slice
  | [], dst => some dst
  | ch :: rest, dst =>
    match sortOrder[ch.val]? with
    | none => none
    | some w => encodeLoop grow sortOrder rest (appendByte grow dst w)

/-- The method `(*Collation_8bit_simple_ci).WeightString`. -/
def Collation_8bit_simple_ci.WeightString (grow : Nat → Nat → Nat) (PadToMax : Int)
    (c : Collation_8bit_simple_ci) (dst : Slice) (src : List Byte) (numCodepoints : Int) :
    Option Slice :=
  match sliceTo c.sort 256 with
  | none => none
  | some sortOrder =>
    match switchPad PadToMax src.length numCodepoints with
    | (numCodepoints, copyCodepoints, padToMax) =>
      match sliceTo src copyCodepoints with
      | none => none
      | some head =>
        match Collation_8bit_simple_ci.encodeLoop grow sortOrder head dst with
        | none => none
        | some dst =>
          some (weightStringPadingSimple grow spaceChar dst
            (numCodepoints - copyCodepoints) padToMax)

/-- The method `(*Collation_8bit_simple_ci).WeightStringLen`. -/
def Collation_8bit_simple_ci.WeightStringLen (_c : Collation_8bit_simple_ci)
    (numBytes : Int) : Int :=
  numBytes

/-- The type `Collation_binary` (an empty struct). -/
structure Collation_binary where

/-- The `switch numCodepoints` of `Collation_binary.WeightString`: the values
of `(copyCodepoints, padToMax)` after it. -/
def switchBinary (PadToMax : Int) (srcLen : Int) (numCodepoints : Int) : Int × Bool :=
  if numCodepoints = 0 then (srcLen, false)
  else if numCodepoints = PadToMax then (srcLen, true)
  else (minInt srcLen numCodepoints, false)

/-- The method `(*Collation_binary).WeightString`. -/
def Collation_binary.WeightString (grow : Nat → Nat → Nat) (PadToMax : Int)
    (_c : Collation_binary) (dst : Slice) (src : List Byte) (numCodepoints : Int) :
    Option Slice :=
  match switchBinary PadToMax src.length numCodepoints with
  | (copyCodepoints, padToMax) =>
    match sliceTo src copyCodepoints with
    | none => none
    | some head =>
      let dst := appendSlice grow dst head
      if padToMax then some (padToCapLoop grow 0x0 (dst.cap - dst.len) dst)
      else some dst

/-- The method `(*Collation_binary).WeightStringLen`. -/
def Collation_binary.WeightStringLen (_c : Collation_binary) (numBytes : Int) : Int :=
  numBytes

/-- Bytewise lexicographic comparison of two byte strings, with result
`-1`, `0` or `1` (the comparison a consumer of weight strings performs). -/
def lexCompare : List Byte → List Byte → Int
  | [], [] => 0
  | [], _ :: _ => -1
  | _ :: _, [] => 1
  | x :: xs, y :: ys =>
    if x < y then -1 else if y < x then 1 else lexCompare xs ys

/-- A growth policy in the style of the Go runtime, for concrete evaluations. -/
def growDouble (oldCap needed : Nat) : Nat := max (2 * oldCap) needed

/-- The identity table: a sort table with 256 entries, `sort[x] = x`. -/
@[irreducible] def identityTable : List Byte := List.ofFn fun x : Byte => x

/-- A folding table with 256 entries: lower-case ASCII letters get the weight
of their upper-case letter, every other byte is its own weight. -/
@[irreducible] def foldTable : List Byte :=
  List.ofFn fun x : Byte => if 97 ≤ x.val ∧ x.val ≤ 122 then x - 32 else x

/-- The weight the table gives a byte: `sort[x]` (zero outside the table). -/
def Collation_8bit_simple_ci.weight (c : Collation_8bit_simple_ci) (x : Byte) : Byte :=
  c.sort.getD x.val 0

/-- The first position at which the weights of two strings differ, as the
difference of the two weights; `none` when the shorter string is exhausted
first. -/
def firstDiff (w : Byte → Byte) : List Byte → List Byte → Option Int
  | x :: xs, y :: ys =>
    if w x ≠ w y then some (((w x).val : Int) - ((w y).val : Int)) else firstDiff w xs ys
  | _, _ => none

/-- The value of the three-way comparison by weights: the first weight
difference, or the difference of the lengths when no weight differs over the
shorter string. -/
def collateValue (w : Byte → Byte) (a b : List Byte) : Int :=
  match firstDiff w a b with
  | some r => r
  | none => (a.length : Int) - (b.length : Int)

/-- Modelled from the spec: the helper `collationBinary` is declared outside
`8bit.go`. Section 4.2: compare byte-by-byte over the shorter length, the first
differing byte deciding; on exact equality over that overlap, with the prefix
flag set `left` is truncated to the length of `right`, and the lengths are
compared. -/
def collationBinary (left right : List Byte) (rightIsPrefix : Bool) : Option Int :=
  let minLen := (minInt left.length right.length).toNat
  match sliceTo left minLen, sliceTo right minLen with
  | some l, some r =>
    let diff := lexCompare l r
    if diff ≠ 0 then some diff
    else if rightIsPrefix then some ((l.length : Int) - (right.length : Int))
    else some ((left.length : Int) - (right.length : Int))
  | _, _ => none

/-- The method `(*Collation_8bit_bin).Collate`. -/
def Collation_8bit_bin.Collate (_c : Collation_8bit_bin) (left right : List Byte)
    (rightIsPrefix : Bool) : Option Int :=
  collationBinary left right rightIsPrefix

/-- The method `(*Collation_binary).Collate`. -/
def Collation_binary.Collate (_c : Collation_binary) (left right : List Byte)
    (isPrefix : Bool) : Option Int :=
  collationBinary left right isPrefix

/-- Whether a string of weights sorts above a run of pad bytes: its first byte
other than the pad byte `0x20` exists and is greater than `0x20`. -/
def sortsAbovePadding : List Byte → Bool
  | [] => false
  | x :: xs => if x = spaceChar then sortsAbovePadding xs else decide (spaceChar < x)

/-- The allocator size classes, in bytes, up to 32768. -/
def sizeClasses : List Nat :=
  [8, 16, 24, 32, 48, 64, 80, 96, 112, 128, 144, 160, 176, 192, 208, 224, 240, 256,
   288, 320, 352, 384, 416, 448, 480, 512, 576, 640, 704, 768, 896, 1024, 1152, 1280,
   1408, 1536, 1792, 2048, 2304, 2688, 3072, 3200, 3456, 4096, 4864, 5120, 5376, 6144,
   6528, 6784, 6912, 8192, 9472, 9728, 10240, 10880, 12288, 13568, 14336, 16384, 18432,
   19072, 20480, 21760, 24576, 27264, 28672, 32768]

/-- Rounding of a requested capacity up to the next size class, and above the
largest class up to a multiple of the 8192-byte page. -/
def roundupsize (n : Nat) : Nat :=
  match sizeClasses.find? fun k => n ≤ k with
  | some k => k
  | none => (n + 8191) / 8192 * 8192

/-- The loop `newcap += (newcap + 768) / 4` run until `newcap` reaches the
required length, for at most `fuel` iterations. -/
def quarterGrowth (needed : Nat) : Nat → Nat → Nat
  | 0, newcap => newcap
  | fuel + 1, newcap =>
    if needed ≤ newcap + (newcap + 768) / 4 then newcap + (newcap + 768) / 4
    else quarterGrowth needed fuel (newcap + (newcap + 768) / 4)

/-- A concrete growth policy for evaluations, after the capacities a Go
toolchain gives a buffer that starts empty. While the capacity is below 32 the
buffer is regrown to the required length; from 32 on the capacity doubles
below 256 and grows by a quarter plus 192 at a time above; a required length
over twice the capacity is taken as it is. Every result is rounded up to a
size class. The capacity `append` picks belongs to the runtime: the theorems
are stated for every `grow`, and this policy is one instance. -/
def growGo (oldCap needed : Nat) : Nat :=
  roundupsize
    (if 2 * oldCap < needed then needed
     else if oldCap < 32 then needed
     else if oldCap < 256 then 2 * oldCap
     else quarterGrowth needed needed oldCap)

/-- The 33-byte input `"aaa...a"`. -/
def input33 : List Byte :=
  [97, 97, 97, 97, 97, 97, 97, 97, 97, 97, 97, 97, 97, 97, 97, 97, 97,
   97, 97, 97, 97, 97, 97, 97, 97, 97, 97, 97, 97, 97, 97, 97, 97]

/-! ## Buffers and the padding loops -/

theorem appendByte_data (grow : Nat → Nat → Nat) (dst : Slice) (b : Byte) :
    (appendByte grow dst b).data = dst.data ++ [b] := by
  unfold appendByte
  split <;> rfl

theorem appendByte_cap (grow : Nat → Nat → Nat) (dst : Slice) (b : Byte)
    (h : dst.len < dst.cap) : (appendByte grow dst b).cap = dst.cap := by
  unfold appendByte
  rw [if_pos (by omega)]

theorem appendByte_len (grow : Nat → Nat → Nat) (dst : Slice) (b : Byte) :
    (appendByte grow dst b).len = dst.len + 1 := by
  simp [Slice.len, appendByte_data]

theorem appendSlice_data (grow : Nat → Nat → Nat) (dst : Slice) (xs : List Byte) :
    (appendSlice grow dst xs).data = dst.data ++ xs := by
  unfold appendSlice
  split <;> rfl

theorem appendSlice_cap (grow : Nat → Nat → Nat) (dst : Slice) (xs : List Byte)
    (h : dst.len + xs.length ≤ dst.cap) : (appendSlice grow dst xs).cap = dst.cap := by
  unfold appendSlice
  rw [if_pos h]

theorem padCountLoop_data (grow : Nat → Nat → Nat) (p : Byte) :
    ∀ (fuel : Nat) (dst : Slice) (n : Int), n.toNat ≤ fuel →
      (padCountLoop grow p fuel dst n).data = dst.data ++ List.replicate n.toNat p := by
  intro fuel
  induction fuel with
  | zero =>
    intro dst n h
    have h0 : n.toNat = 0 := by omega
    simp [padCountLoop, h0]
  | succ fuel ih =>
    intro dst n h
    unfold padCountLoop
    by_cases hn : n > 0
    · rw [if_pos hn, ih _ _ (by omega), appendByte_data]
      have hs : n.toNat = (n - 1).toNat + 1 := by omega
      rw [hs, List.replicate_succ, List.append_assoc]
      rfl
    · rw [if_neg hn]
      have h0 : n.toNat = 0 := by omega
      simp [h0]

theorem padToCapLoop_full (grow : Nat → Nat → Nat) (p : Byte) :
    ∀ (fuel : Nat) (dst : Slice), dst.len ≤ dst.cap → dst.cap - dst.len ≤ fuel →
      (padToCapLoop grow p fuel dst).data = dst.data ++ List.replicate (dst.cap - dst.len) p
      ∧ (padToCapLoop grow p fuel dst).cap = dst.cap := by
  intro fuel
  induction fuel with
  | zero =>
    intro dst _ h
    have h0 : dst.cap - dst.len = 0 := by omega
    simp [padToCapLoop, h0]
  | succ fuel ih =>
    intro dst hle h
    unfold padToCapLoop
    by_cases hlt : dst.len < dst.cap
    · rw [if_pos hlt]
      have hc := appendByte_cap grow dst p hlt
      have hl := appendByte_len grow dst p
      obtain ⟨h1, h2⟩ := ih (appendByte grow dst p) (by omega) (by omega)
      rw [h1, h2, hc, hl, appendByte_data]
      have hs : dst.cap - dst.len = (dst.cap - (dst.len + 1)) + 1 := by omega
      constructor
      · rw [hs, List.replicate_succ, List.append_assoc]
        simp
      · trivial
    · rw [if_neg hlt]
      have h0 : dst.cap - dst.len = 0 := by omega
      simp [h0]

theorem padToCapLoop_shape (grow : Nat → Nat → Nat) (p : Byte) :
    ∀ (fuel : Nat) (dst : Slice),
      ∃ k, (padToCapLoop grow p fuel dst).data = dst.data ++ List.replicate k p := by
  intro fuel
  induction fuel with
  | zero => intro dst; exact ⟨0, by simp [padToCapLoop]⟩
  | succ fuel ih =>
    intro dst
    unfold padToCapLoop
    by_cases hlt : dst.len < dst.cap
    · rw [if_pos hlt]
      obtain ⟨k, hk⟩ := ih (appendByte grow dst p)
      refine ⟨k + 1, ?_⟩
      rw [hk, appendByte_data, List.replicate_succ, List.append_assoc]
      rfl
    · rw [if_neg hlt]
      exact ⟨0, by simp⟩

theorem sliceTo_of_bounds (s : List Byte) (k : Int) (h0 : 0 ≤ k) (h1 : k ≤ (s.length : Int)) :
    sliceTo s k = some (s.take k.toNat) := by
  unfold sliceTo
  rw [if_pos ⟨h0, h1⟩]

theorem sliceTo_neg (s : List Byte) (k : Int) (h : k < 0) : sliceTo s k = none := by
  unfold sliceTo
  rw [if_neg (by omega)]

theorem sliceTo_length (s : List Byte) : sliceTo s (s.length : Int) = some s := by
  rw [sliceTo_of_bounds s _ (by omega) (by omega)]
  simp

theorem minInt_eq_min (a b : Int) : minInt a b = min a b := by
  unfold minInt
  split <;> omega

/-! ## The weight mapping and the encoding loop -/

theorem lookup_sort (c : Collation_8bit_simple_ci) (h : c.sort.length = 256) (x : Byte) :
    c.sort[x.val]? = some (c.weight x) := by
  have hx : x.val < c.sort.length := by rw [h]; exact x.isLt
  simp [Collation_8bit_simple_ci.weight, List.getD, List.getElem?_eq_getElem hx]

theorem sliceTo_sort (c : Collation_8bit_simple_ci) (h : c.sort.length = 256) :
    sliceTo c.sort 256 = some c.sort := by
  have h2 : (256 : Int) = (c.sort.length : Int) := by omega
  rw [h2]
  exact sliceTo_length c.sort

theorem encodeLoop_spec (grow : Nat → Nat → Nat) (c : Collation_8bit_simple_ci)
    (h : c.sort.length = 256) :
    ∀ (xs : List Byte) (dst : Slice),
      ∃ r, Collation_8bit_simple_ci.encodeLoop grow c.sort xs dst = some r
        ∧ r.data = dst.data ++ xs.map c.weight
        ∧ (dst.len + xs.length ≤ dst.cap → r.cap = dst.cap) := by
  intro xs
  induction xs with
  | nil => intro dst; exact ⟨dst, rfl, by simp, fun _ => rfl⟩
  | cons x xs ih =>
    intro dst
    obtain ⟨r, hr, hd, hc⟩ := ih (appendByte grow dst (c.weight x))
    refine ⟨r, ?_, ?_, ?_⟩
    · simp only [Collation_8bit_simple_ci.encodeLoop, lookup_sort c h x]
      exact hr
    · rw [hd, appendByte_data]
      simp
    · intro hle
      simp only [List.length_cons] at hle
      have hc1 := appendByte_cap grow dst (c.weight x) (by omega)
      have hl1 := appendByte_len grow dst (c.weight x)
      rw [hc (by rw [hl1, hc1]; omega), hc1]

/-! ## `WeightString` in each of its three modes -/

theorem switchPad_zero (P srcLen : Int) : switchPad P srcLen 0 = (srcLen, srcLen, false) := by
  simp [switchPad]

theorem switchPad_max (P srcLen : Int) (hP : P ≠ 0) : switchPad P srcLen P = (P, srcLen, true) := by
  simp [switchPad, hP]

theorem switchPad_count (P srcLen n : Int) (h0 : n ≠ 0) (hP : n ≠ P) :
    switchPad P srcLen n = (n, min srcLen n, false) := by
  simp [switchPad, h0, hP, minInt_eq_min]

theorem switchBinary_zero (P srcLen : Int) : switchBinary P srcLen 0 = (srcLen, false) := by
  simp [switchBinary]

theorem switchBinary_max (P srcLen : Int) (hP : P ≠ 0) :
    switchBinary P srcLen P = (srcLen, true) := by
  simp [switchBinary, hP]

theorem switchBinary_count (P srcLen n : Int) (h0 : n ≠ 0) (hP : n ≠ P) :
    switchBinary P srcLen n = (min srcLen n, false) := by
  simp [switchBinary, h0, hP, minInt_eq_min]

theorem padding_count_data (grow : Nat → Nat → Nat) (p : Byte) (dst : Slice) (n : Int) :
    (weightStringPadingSimple grow p dst n false).data
      = dst.data ++ List.replicate n.toNat p := by
  simp only [weightStringPadingSimple, Bool.false_eq_true, if_false]
  exact padCountLoop_data grow p _ dst n (le_refl _)

theorem padding_max_data (grow : Nat → Nat → Nat) (p : Byte) (dst : Slice) (n : Int) :
    ∃ k, (weightStringPadingSimple grow p dst n true).data = dst.data ++ List.replicate k p := by
  simp only [weightStringPadingSimple, if_true]
  exact padToCapLoop_shape grow p _ dst

theorem padding_max_len (grow : Nat → Nat → Nat) (p : Byte) (dst : Slice) (n : Int)
    (h : dst.len ≤ dst.cap) :
    (weightStringPadingSimple grow p dst n true).len = dst.cap := by
  simp only [weightStringPadingSimple, if_true]
  obtain ⟨h1, _⟩ := padToCapLoop_full grow p _ dst h (le_refl _)
  simp only [Slice.len] at h1 h ⊢
  rw [h1]
  simp
  omega

theorem ci_zero (grow : Nat → Nat → Nat) (P : Int) (c : Collation_8bit_simple_ci)
    (h : c.sort.length = 256) (dst : Slice) (src : List Byte) :
    ∃ r, c.WeightString grow P dst src 0 = some r ∧ r.data = dst.data ++ src.map c.weight := by
  obtain ⟨e, he, hd, _⟩ := encodeLoop_spec grow c h src dst
  refine ⟨weightStringPadingSimple grow spaceChar e ((src.length : Int) - src.length) false,
    ?_, ?_⟩
  · simp only [Collation_8bit_simple_ci.WeightString, sliceTo_sort c h, switchPad_zero,
      sliceTo_length, he]
  · rw [padding_count_data, hd]
    simp

theorem ci_count (grow : Nat → Nat → Nat) (P : Int) (c : Collation_8bit_simple_ci)
    (h : c.sort.length = 256) (dst : Slice) (src : List Byte) (n : Int)
    (hn : 0 < n) (hP : n ≠ P) :
    ∃ r, c.WeightString grow P dst src n = some r
      ∧ r.data = dst.data ++ (src.take (min n.toNat src.length)).map c.weight
          ++ List.replicate (n.toNat - min n.toNat src.length) spaceChar := by
  have hm : (min (src.length : Int) n).toNat = min n.toNat src.length := by omega
  obtain ⟨e, he, hd, _⟩ := encodeLoop_spec grow c h (src.take (min n.toNat src.length)) dst
  refine ⟨weightStringPadingSimple grow spaceChar e (n - min (src.length : Int) n) false,
    ?_, ?_⟩
  · have hs : sliceTo src (min (src.length : Int) n)
        = some (src.take (min n.toNat src.length)) := by
      rw [sliceTo_of_bounds src _ (by omega) (by omega), hm]
    have h0 : n ≠ 0 := by omega
    simp only [Collation_8bit_simple_ci.WeightString, sliceTo_sort c h,
      switchPad_count P _ n h0 hP, hs, he]
  · rw [padding_count_data, hd]
    have hk : (n - min (src.length : Int) n).toNat = n.toNat - min n.toNat src.length := by omega
    rw [hk]

theorem ci_max (grow : Nat → Nat → Nat) (P : Int) (hP : P ≠ 0) (c : Collation_8bit_simple_ci)
    (h : c.sort.length = 256) (dst : Slice) (src : List Byte) :
    ∃ r, c.WeightString grow P dst src P = some r
      ∧ (∃ k, r.data = dst.data ++ src.map c.weight ++ List.replicate k spaceChar)
      ∧ (dst.len + src.length ≤ dst.cap → r.len = dst.cap) := by
  obtain ⟨e, he, hd, hc⟩ := encodeLoop_spec grow c h src dst
  refine ⟨weightStringPadingSimple grow spaceChar e (P - (src.length : Int)) true, ?_, ?_, ?_⟩
  · simp only [Collation_8bit_simple_ci.WeightString, sliceTo_sort c h, switchPad_max P _ hP,
      sliceTo_length, he]
  · obtain ⟨k, hk⟩ := padding_max_data grow spaceChar e (P - src.length)
    exact ⟨k, by rw [hk, hd]⟩
  · intro hle
    have hcap := hc hle
    rw [padding_max_len grow spaceChar e _ (by simp [Slice.len, hd, hcap] at hle ⊢; omega), hcap]

theorem bin_zero (grow : Nat → Nat → Nat) (P : Int) (c : Collation_8bit_bin)
    (dst : Slice) (src : List Byte) :
    ∃ r, c.WeightString grow P dst src 0 = some r ∧ r.data = dst.data ++ src := by
  refine ⟨weightStringPadingSimple grow spaceChar (appendSlice grow dst src)
    ((src.length : Int) - src.length) false, ?_, ?_⟩
  · simp only [Collation_8bit_bin.WeightString, switchPad_zero, sliceTo_length]
  · rw [padding_count_data, appendSlice_data]
    simp

theorem bin_count (grow : Nat → Nat → Nat) (P : Int) (c : Collation_8bit_bin)
    (dst : Slice) (src : List Byte) (n : Int) (hn : 0 < n) (hP : n ≠ P) :
    ∃ r, c.WeightString grow P dst src n = some r
      ∧ r.data = dst.data ++ src.take (min n.toNat src.length)
          ++ List.replicate (n.toNat - min n.toNat src.length) spaceChar := by
  have hm : (min (src.length : Int) n).toNat = min n.toNat src.length := by omega
  have hs : sliceTo src (min (src.length : Int) n)
      = some (src.take (min n.toNat src.length)) := by
    rw [sliceTo_of_bounds src _ (by omega) (by omega), hm]
  have h0 : n ≠ 0 := by omega
  refine ⟨weightStringPadingSimple grow spaceChar
    (appendSlice grow dst (src.take (min n.toNat src.length)))
    (n - min (src.length : Int) n) false, ?_, ?_⟩
  · simp only [Collation_8bit_bin.WeightString, switchPad_count P _ n h0 hP, hs]
  · rw [padding_count_data, appendSlice_data]
    have hk : (n - min (src.length : Int) n).toNat = n.toNat - min n.toNat src.length := by omega
    rw [hk]

theorem bin_max (grow : Nat → Nat → Nat) (P : Int) (hP : P ≠ 0) (c : Collation_8bit_bin)
    (dst : Slice) (src : List Byte) :
    ∃ r, c.WeightString grow P dst src P = some r
      ∧ (∃ k, r.data = dst.data ++ src ++ List.replicate k spaceChar)
      ∧ (dst.len + src.length ≤ dst.cap → r.len = dst.cap) := by
  refine ⟨weightStringPadingSimple grow spaceChar (appendSlice grow dst src)
    (P - (src.length : Int)) true, ?_, ?_, ?_⟩
  · simp only [Collation_8bit_bin.WeightString, switchPad_max P _ hP, sliceTo_length]
  · obtain ⟨k, hk⟩ := padding_max_data grow spaceChar (appendSlice grow dst src)
      (P - src.length)
    exact ⟨k, by rw [hk, appendSlice_data]⟩
  · intro hle
    have hcap := appendSlice_cap grow dst src hle
    rw [padding_max_len grow spaceChar _ _
      (by simp [Slice.len, appendSlice_data, hcap] at hle ⊢; omega), hcap]

theorem binary_zero (grow : Nat → Nat → Nat) (P : Int) (c : Collation_binary)
    (dst : Slice) (src : List Byte) :
    ∃ r, c.WeightString grow P dst src 0 = some r ∧ r.data = dst.data ++ src := by
  refine ⟨appendSlice grow dst src, ?_, appendSlice_data grow dst src⟩
  simp [Collation_binary.WeightString, switchBinary_zero, sliceTo_length]

theorem binary_count (grow : Nat → Nat → Nat) (P : Int) (c : Collation_binary)
    (dst : Slice) (src : List Byte) (n : Int) (hn : 0 < n) (hP : n ≠ P) :
    ∃ r, c.WeightString grow P dst src n = some r
      ∧ r.data = dst.data ++ src.take (min n.toNat src.length) := by
  have hm : (min (src.length : Int) n).toNat = min n.toNat src.length := by omega
  have hs : sliceTo src (min (src.length : Int) n)
      = some (src.take (min n.toNat src.length)) := by
    rw [sliceTo_of_bounds src _ (by omega) (by omega), hm]
  have h0 : n ≠ 0 := by omega
  refine ⟨appendSlice grow dst (src.take (min n.toNat src.length)), ?_,
    appendSlice_data grow dst _⟩
  simp [Collation_binary.WeightString, switchBinary_count P _ n h0 hP, hs]

theorem binary_max (grow : Nat → Nat → Nat) (P : Int) (hP : P ≠ 0) (c : Collation_binary)
    (dst : Slice) (src : List Byte) :
    ∃ r, c.WeightString grow P dst src P = some r
      ∧ (∃ k, r.data = dst.data ++ src ++ List.replicate k (0 : Byte))
      ∧ (dst.len + src.length ≤ dst.cap → r.len = dst.cap) := by
  refine ⟨padToCapLoop grow 0 ((appendSlice grow dst src).cap - (appendSlice grow dst src).len)
    (appendSlice grow dst src), ?_, ?_, ?_⟩
  · simp [Collation_binary.WeightString, switchBinary_max P _ hP, sliceTo_length]
  · obtain ⟨k, hk⟩ := padToCapLoop_shape grow 0
      ((appendSlice grow dst src).cap - (appendSlice grow dst src).len) (appendSlice grow dst src)
    exact ⟨k, by rw [hk, appendSlice_data]⟩
  · intro hle
    have hcap := appendSlice_cap grow dst src hle
    have hlen : (appendSlice grow dst src).len ≤ (appendSlice grow dst src).cap := by
      simp [Slice.len, appendSlice_data, hcap] at hle ⊢; omega
    obtain ⟨h1, _⟩ := padToCapLoop_full grow 0 _ (appendSlice grow dst src) hlen (le_refl _)
    simp only [Slice.len] at h1 hlen ⊢
    rw [h1, ← hcap]
    simp
    omega

theorem negative_count_panics (grow : Nat → Nat → Nat) (P : Int) (dst : Slice)
    (src : List Byte) (n : Int) (hn : n < 0) (hP : n ≠ P) :
    Collation_binary.WeightString grow P ⟨⟩ dst src n = none
    ∧ (∀ c : Collation_8bit_bin, c.WeightString grow P dst src n = none)
    ∧ (∀ c : Collation_8bit_simple_ci, c.WeightString grow P dst src n = none) := by
  have h0 : n ≠ 0 := by omega
  have hs : sliceTo src (min (src.length : Int) n) = none := sliceTo_neg src _ (by omega)
  refine ⟨?_, ?_, ?_⟩
  · simp [Collation_binary.WeightString, switchBinary_count P _ n h0 hP, hs]
  · intro c
    simp [Collation_8bit_bin.WeightString, switchPad_count P _ n h0 hP, hs]
  · intro c
    simp only [Collation_8bit_simple_ci.WeightString, switchPad_count P _ n h0 hP, hs]
    cases sliceTo c.sort 256 <;> rfl

/-! ## The comparison loop of `Collate` -/

theorem firstDiff_take (w : Byte → Byte) :
    ∀ (a b : List Byte) (m : Nat), min a.length b.length ≤ m →
      firstDiff w (a.take m) (b.take m) = firstDiff w a b := by
  intro a
  induction a with
  | nil => intro b m _; simp [firstDiff]
  | cons x xs ih =>
    intro b m hm
    cases b with
    | nil => simp [firstDiff]
    | cons y ys =>
      cases m with
      | zero => simp at hm
      | succ m =>
        simp only [List.length_cons] at hm
        simp only [List.take_succ_cons, firstDiff]
        rw [ih ys m (by omega)]

theorem collateLoop_spec (c : Collation_8bit_simple_ci) (h : c.sort.length = 256)
    (left right : List Byte) (cmpLen : Nat) (hl : cmpLen ≤ left.length)
    (hr : cmpLen ≤ right.length) :
    ∀ (fuel i : Nat), cmpLen ≤ i + fuel →
      Collation_8bit_simple_ci.collateLoop c.sort left right cmpLen fuel i
        = some (firstDiff c.weight ((left.drop i).take (cmpLen - i))
            ((right.drop i).take (cmpLen - i))) := by
  intro fuel
  induction fuel with
  | zero =>
    intro i hi
    have h0 : cmpLen - i = 0 := by omega
    simp [Collation_8bit_simple_ci.collateLoop, h0, firstDiff]
  | succ fuel ih =>
    intro i hi
    unfold Collation_8bit_simple_ci.collateLoop
    by_cases hlt : i < cmpLen
    · have hil : i < left.length := by omega
      have hir : i < right.length := by omega
      have hs : cmpLen - i = (cmpLen - (i + 1)) + 1 := by omega
      rw [if_pos hlt, List.getElem?_eq_getElem hil, List.getElem?_eq_getElem hir]
      simp only [lookup_sort c h]
      rw [List.drop_eq_getElem_cons hil, List.drop_eq_getElem_cons hir, hs]
      simp only [List.take_succ_cons, firstDiff]
      rw [ih (i + 1) (by omega)]
      split <;> rfl
    · have h0 : cmpLen - i = 0 := by omega
      rw [if_neg hlt, h0]
      simp [firstDiff]

theorem cmpLen_eq (left right : List Byte) :
    (minInt (left.length : Int) (right.length : Int)).toNat = min left.length right.length := by
  rw [minInt_eq_min]
  omega

theorem Collate_eq (c : Collation_8bit_simple_ci) (h : c.sort.length = 256)
    (left right : List Byte) (rightIsPrefix : Bool) :
    c.Collate left right rightIsPrefix
      = some (match firstDiff c.weight left right with
          | some r => r
          | none =>
            if rightIsPrefix then ((min left.length right.length : Nat) : Int) - right.length
            else (left.length : Int) - right.length) := by
  have hloop := collateLoop_spec c h left right (min left.length right.length)
    (Nat.min_le_left _ _) (Nat.min_le_right _ _) (min left.length right.length) 0 (by omega)
  simp only [List.drop_zero, Nat.sub_zero] at hloop
  rw [firstDiff_take c.weight left right _ (le_refl _)] at hloop
  simp only [Collation_8bit_simple_ci.Collate, cmpLen_eq, hloop]
  cases firstDiff c.weight left right with
  | some r => rfl
  | none =>
    cases rightIsPrefix with
    | false => simp
    | true =>
      simp only [if_true]
      rw [sliceTo_of_bounds left _ (by omega) (by omega)]
      simp

theorem Collate_false_eq (c : Collation_8bit_simple_ci) (h : c.sort.length = 256)
    (a b : List Byte) : c.Collate a b false = some (collateValue c.weight a b) := by
  rw [Collate_eq c h a b false]
  simp only [collateValue, Bool.false_eq_true, if_false]

theorem firstDiff_take_left (w : Byte → Byte) :
    ∀ (a b : List Byte) (m : Nat), min a.length b.length ≤ m →
      firstDiff w (a.take m) b = firstDiff w a b := by
  intro a
  induction a with
  | nil => intro b m _; simp [firstDiff]
  | cons x xs ih =>
    intro b m hm
    cases b with
    | nil => cases m <;> simp [firstDiff]
    | cons y ys =>
      cases m with
      | zero => simp at hm
      | succ m =>
        simp only [List.length_cons] at hm
        simp only [List.take_succ_cons, firstDiff]
        rw [ih ys m (by omega)]

theorem firstDiff_none_of_weights_eq (w : Byte → Byte) :
    ∀ (a b : List Byte),
      (∀ (i : Nat) (h1 : i < a.length) (h2 : i < b.length), w a[i] = w b[i]) →
      firstDiff w a b = none := by
  intro a
  induction a with
  | nil => intro b _; simp [firstDiff]
  | cons x xs ih =>
    intro b hw
    cases b with
    | nil => simp [firstDiff]
    | cons y ys =>
      have h0 := hw 0 (by simp) (by simp)
      simp only [List.getElem_cons_zero] at h0
      simp only [firstDiff, h0, ne_eq, not_true_eq_false, if_false]
      apply ih
      intro i h1 h2
      have := hw (i + 1) (by simp; omega) (by simp; omega)
      simpa using this

theorem sign_agreement (w : Byte → Byte) :
    ∀ (a b : List Byte),
      Int.sign (match firstDiff w a b with
        | some r => r
        | none => (a.length : Int) - (b.length : Int))
      = Int.sign (lexCompare (a.map w) (b.map w)) := by
  intro a
  induction a with
  | nil =>
    intro b
    cases b with
    | nil => simp [firstDiff, lexCompare]
    | cons y ys =>
      simp only [firstDiff, lexCompare, List.map_cons, List.map_nil, List.length_nil,
        List.length_cons]
      rw [Int.sign_eq_neg_one_of_neg (by omega)]
      rfl
  | cons x xs ih =>
    intro b
    cases b with
    | nil =>
      simp only [firstDiff, lexCompare, List.map_cons, List.map_nil, List.length_nil,
        List.length_cons]
      rw [Int.sign_eq_one_of_pos (by omega)]
      rfl
    | cons y ys =>
      simp only [firstDiff, lexCompare, List.map_cons, List.length_cons]
      by_cases hlt : w x < w y
      · have hne : w x ≠ w y := ne_of_lt hlt
        have hv : (w x).val < (w y).val := hlt
        rw [if_pos hne, if_pos hlt]
        simp only []
        rw [Int.sign_eq_neg_one_of_neg (by omega)]
        rfl
      · by_cases hgt : w y < w x
        · have hne : w x ≠ w y := (ne_of_lt hgt).symm
          have hv : (w y).val < (w x).val := hgt
          rw [if_pos hne, if_neg hlt, if_pos hgt]
          simp only []
          rw [Int.sign_eq_one_of_pos (by omega)]
          rfl
        · have heq : w x = w y := le_antisymm (not_lt.mp hgt) (not_lt.mp hlt)
          rw [if_neg (by simp [heq]), if_neg hlt, if_neg hgt, ← ih ys]
          cases firstDiff w xs ys with
          | some r => rfl
          | none =>
            simp only []
            congr 1
            push_cast
            omega

theorem identityTable_length : identityTable.length = 256 := by
  unfold identityTable
  exact List.length_ofFn _

theorem foldTable_length : foldTable.length = 256 := by
  unfold foldTable
  exact List.length_ofFn _

theorem foldTable_lookup (x : Byte) :
    foldTable[x.val]? = some (if 97 ≤ x.val ∧ x.val ≤ 122 then x - 32 else x) := by
  have hx : x.val < foldTable.length := by rw [foldTable_length]; exact x.isLt
  rw [List.getElem?_eq_getElem hx]
  simp only [foldTable, List.getElem_ofFn]

theorem identityTable_lookup (x : Byte) : identityTable[x.val]? = some x := by
  have hx : x.val < identityTable.length := by rw [identityTable_length]; exact x.isLt
  rw [List.getElem?_eq_getElem hx]
  simp only [identityTable, List.getElem_ofFn]

/-! ## The claims -/

/-- C1 (order agreement, case-insensitive collation): with a 256-entry sort
table, `Collate(a, b, false)` and both unpadded weight strings are produced,
and the sign of the comparison equals the sign of the bytewise lexicographic
comparison of `WeightString(nil, a, 0)` with `WeightString(nil, b, 0)`. -/
theorem simple_ci_order_agreement (grow : Nat → Nat → Nat) (PadToMax : Int)
    (c : Collation_8bit_simple_ci) (h : c.sort.length = 256) (a b : List Byte) :
    ∃ r wa wb, c.Collate a b false = some r
      ∧ c.WeightString grow PadToMax Slice.nil a 0 = some wa
      ∧ c.WeightString grow PadToMax Slice.nil b 0 = some wb
      ∧ Int.sign r = Int.sign (lexCompare wa.data wb.data) := by
  obtain ⟨wa, hwa, hda⟩ := ci_zero grow PadToMax c h Slice.nil a
  obtain ⟨wb, hwb, hdb⟩ := ci_zero grow PadToMax c h Slice.nil b
  refine ⟨_, wa, wb, Collate_eq c h a b false, hwa, hwb, ?_⟩
  rw [hda, hdb]
  simp only [Slice.nil, List.nil_append, Bool.false_eq_true, if_false]
  exact sign_agreement c.weight a b

/-- Witness of C1: the folding table, `"aB"` against `"Ab"`. -/
theorem simple_ci_order_agreement_witness :
    foldTable.length = 256 ∧
    ∃ r wa wb, (Collation_8bit_simple_ci.mk foldTable).Collate [97, 66] [65, 98] false = some r
      ∧ (Collation_8bit_simple_ci.mk foldTable).WeightString growDouble (-1) Slice.nil
          [97, 66] 0 = some wa
      ∧ (Collation_8bit_simple_ci.mk foldTable).WeightString growDouble (-1) Slice.nil
          [65, 98] 0 = some wb
      ∧ Int.sign r = Int.sign (lexCompare wa.data wb.data) :=
  ⟨foldTable_length,
    simple_ci_order_agreement growDouble (-1) ⟨foldTable⟩ foldTable_length [97, 66] [65, 98]⟩

/-- C2 (prefix semantics, case-insensitive collation): with a 256-entry sort
table, when `b` is shorter than `a` and `sort[a[i]] = sort[b[i]]` at every
position of `b`, `Collate(a, b, true)` is `0` and `Collate(a, b, false)` is
strictly positive. -/
theorem simple_ci_prefix_semantics (c : Collation_8bit_simple_ci) (h : c.sort.length = 256)
    (a b : List Byte) (hlen : b.length < a.length)
    (hw : ∀ (i : Nat) (h1 : i < a.length) (h2 : i < b.length),
      c.sort[(a[i]).val]? = c.sort[(b[i]).val]?) :
    c.Collate a b true = some 0 ∧ ∃ r, c.Collate a b false = some r ∧ 0 < r := by
  have hnone : firstDiff c.weight a b = none := by
    apply firstDiff_none_of_weights_eq
    intro i h1 h2
    have := hw i h1 h2
    rw [lookup_sort c h, lookup_sort c h] at this
    exact Option.some.inj this
  constructor
  · have hm : min a.length b.length = b.length := by omega
    rw [Collate_eq c h a b true, hnone]
    simp [hm]
  · refine ⟨_, Collate_eq c h a b false, ?_⟩
    rw [hnone]
    show (0 : Int) < (a.length : Int) - (b.length : Int)
    omega

/-- Witness of C2: the folding table, `"abc"` with the prefix `"AB"`. -/
theorem simple_ci_prefix_semantics_witness :
    foldTable.length = 256 ∧
    (Collation_8bit_simple_ci.mk foldTable).Collate [97, 98, 99] [65, 66] true = some 0
    ∧ ∃ r, (Collation_8bit_simple_ci.mk foldTable).Collate [97, 98, 99] [65, 66] false = some r
      ∧ 0 < r :=
  ⟨foldTable_length,
    simple_ci_prefix_semantics ⟨foldTable⟩ foldTable_length [97, 98, 99] [65, 66] (by decide)
      (by
        intro i h1 h2
        simp only [foldTable_lookup]
        have hi : i = 0 ∨ i = 1 := by
          simp only [List.length_cons, List.length_nil] at h2
          omega
        rcases hi with rfl | rfl <;> rfl)⟩

/-- C3 (prefix mode is comparison against the truncated left operand): with a
256-entry sort table, `Collate(left, right, true)` returns the same integer as
`Collate(left[:min(len(left), len(right))], right, false)`. -/
theorem simple_ci_prefix_is_truncation (c : Collation_8bit_simple_ci)
    (h : c.sort.length = 256) (left right : List Byte) :
    ∃ r, c.Collate left right true = some r
      ∧ c.Collate (left.take (min left.length right.length)) right false = some r := by
  refine ⟨_, Collate_eq c h left right true, ?_⟩
  rw [Collate_eq c h _ right false,
    firstDiff_take_left c.weight left right _ (le_refl _)]
  simp only [if_true, Bool.false_eq_true, if_false, List.length_take]
  have hm : min (min left.length right.length) left.length = min left.length right.length := by
    omega
  rw [hm]

/-- Witness of C3: the folding table, `"abc"` against `"AB"`. -/
theorem simple_ci_prefix_is_truncation_witness :
    foldTable.length = 256 ∧
    ∃ r, (Collation_8bit_simple_ci.mk foldTable).Collate [97, 98, 99] [65, 66] true = some r
      ∧ (Collation_8bit_simple_ci.mk foldTable).Collate
          (([97, 98, 99] : List Byte).take
            (min ([97, 98, 99] : List Byte).length ([65, 66] : List Byte).length))
          [65, 66] false = some r :=
  ⟨foldTable_length,
    simple_ci_prefix_is_truncation ⟨foldTable⟩ foldTable_length [97, 98, 99] [65, 66]⟩

/-- C4 (fixed-count encoding, case-insensitive collation): with a 256-entry
sort table and a positive `n` other than `PadToMax`, `WeightString(dst, src, n)`
is `dst`, then `sort[src[i]]` for `i < min(n, len(src))`, then exactly
`n - min(n, len(src))` space bytes; with `n = 0` it is `dst` followed by
`sort[src[i]]` for every `i < len(src)` and no padding. -/
theorem simple_ci_fixed_count (grow : Nat → Nat → Nat) (PadToMax : Int)
    (c : Collation_8bit_simple_ci) (h : c.sort.length = 256) (dst : Slice) (src : List Byte)
    (n : Int) (hn : 0 < n) (hP : n ≠ PadToMax) :
    (∃ r, c.WeightString grow PadToMax dst src n = some r
      ∧ r.data = dst.data
          ++ (src.take (min n.toNat src.length)).map (fun x => c.sort.getD x.val 0)
          ++ List.replicate (n.toNat - min n.toNat src.length) (0x20 : Byte))
    ∧ (∃ r, c.WeightString grow PadToMax dst src 0 = some r
      ∧ r.data = dst.data ++ src.map (fun x => c.sort.getD x.val 0)) :=
  ⟨ci_count grow PadToMax c h dst src n hn hP, ci_zero grow PadToMax c h dst src⟩

/-- Witness of C4: the folding table, `"ab"` encoded to five units after
`[1]`. -/
theorem simple_ci_fixed_count_witness :
    foldTable.length = 256 ∧ (0 : Int) < 5 ∧ (5 : Int) ≠ -1 ∧
    (∃ r, (Collation_8bit_simple_ci.mk foldTable).WeightString growDouble (-1) ⟨[1], 1⟩
        [97, 98] 5 = some r
      ∧ r.data = (Slice.mk [1] 1).data
          ++ (([97, 98] : List Byte).take (min (5 : Int).toNat ([97, 98] : List Byte).length)).map
              (fun x => foldTable.getD x.val 0)
          ++ List.replicate ((5 : Int).toNat - min (5 : Int).toNat ([97, 98] : List Byte).length)
              (0x20 : Byte))
    ∧ (∃ r, (Collation_8bit_simple_ci.mk foldTable).WeightString growDouble (-1) ⟨[1], 1⟩
        [97, 98] 0 = some r
      ∧ r.data = (Slice.mk [1] 1).data
          ++ ([97, 98] : List Byte).map (fun x => foldTable.getD x.val 0)) :=
  ⟨foldTable_length, by decide, by decide,
    simple_ci_fixed_count growDouble (-1) ⟨foldTable⟩ foldTable_length ⟨[1], 1⟩ [97, 98] 5
      (by decide) (by decide)⟩

/-- C5 (idempotent padding, space-padded variants): for `Collation_8bit_bin`
and for `Collation_8bit_simple_ci` with a 256-entry table, when
`n > len(src)` and `n` is not `PadToMax`, `len(WeightString(nil, src, n))` is
exactly `n`. -/
theorem space_padded_length (grow : Nat → Nat → Nat) (PadToMax : Int)
    (cb : Collation_8bit_bin) (c : Collation_8bit_simple_ci) (h : c.sort.length = 256)
    (src : List Byte) (n : Int) (hn : (src.length : Int) < n) (hP : n ≠ PadToMax) :
    (∃ r, cb.WeightString grow PadToMax Slice.nil src n = some r ∧ (r.len : Int) = n)
    ∧ (∃ r, c.WeightString grow PadToMax Slice.nil src n = some r ∧ (r.len : Int) = n) := by
  have hpos : 0 < n := by omega
  obtain ⟨r1, h1, d1⟩ := bin_count grow PadToMax cb Slice.nil src n hpos hP
  obtain ⟨r2, h2, d2⟩ := ci_count grow PadToMax c h Slice.nil src n hpos hP
  refine ⟨⟨r1, h1, ?_⟩, ⟨r2, h2, ?_⟩⟩
  · simp only [Slice.len, d1, Slice.nil, List.nil_append, List.length_append, List.length_take,
      List.length_replicate]
    omega
  · simp only [Slice.len, d2, Slice.nil, List.nil_append, List.length_append, List.length_take,
      List.length_replicate, List.length_map]
    omega

/-- Witness of C5: `"ab"` encoded with `n = 4`. -/
theorem space_padded_length_witness :
    foldTable.length = 256 ∧ ((([97, 98] : List Byte).length : Nat) : Int) < 4 ∧ (4 : Int) ≠ -1 ∧
    (∃ r, (Collation_8bit_bin.mk []).WeightString growDouble (-1) Slice.nil [97, 98] 4 = some r
      ∧ (r.len : Int) = 4)
    ∧ (∃ r, (Collation_8bit_simple_ci.mk foldTable).WeightString growDouble (-1) Slice.nil
        [97, 98] 4 = some r ∧ (r.len : Int) = 4) :=
  ⟨foldTable_length, by decide, by decide,
    space_padded_length growDouble (-1) ⟨[]⟩ ⟨foldTable⟩ foldTable_length [97, 98] 4
      (by decide) (by decide)⟩

/-- C6, as stated, fails: `Collation_binary.WeightString(nil, "ab", 4)` is the
two bytes of `"ab"`, of length `2`, not `4` (shown for `PadToMax = -1` and for
`PadToMax = 2147483647`). -/
theorem binary_fixed_count_not_padded :
    Collation_binary.WeightString growDouble (-1) ⟨⟩ Slice.nil [97, 98] 4
      = some ⟨[97, 98], 2⟩
    ∧ Collation_binary.WeightString growDouble 2147483647 ⟨⟩ Slice.nil [97, 98] 4
      = some ⟨[97, 98], 2⟩
    ∧ ((Slice.mk [97, 98] 2).len : Int) ≠ 4 := by
  decide

/-- C6, amended: for `Collation_binary`, when `n > len(src)` and `n` is not
`PadToMax`, `WeightString(nil, src, n)` is a copy of `src` with no padding, so
its length is `len(src)`. -/
theorem binary_fixed_count_length (grow : Nat → Nat → Nat) (PadToMax : Int)
    (c : Collation_binary) (src : List Byte) (n : Int) (hn : (src.length : Int) < n)
    (hP : n ≠ PadToMax) :
    ∃ r, c.WeightString grow PadToMax Slice.nil src n = some r
      ∧ r.data = src ∧ r.len = src.length := by
  obtain ⟨r, hr, hd⟩ := binary_count grow PadToMax c Slice.nil src n (by omega) hP
  have hm : min n.toNat src.length = src.length := by omega
  have hd2 : r.data = src := by
    rw [hd, hm]
    simp [Slice.nil]
  exact ⟨r, hr, hd2, by rw [Slice.len, hd2]⟩

/-- Witness of the amended C6: `"ab"` with `n = 4`. -/
theorem binary_fixed_count_length_witness :
    ((([97, 98] : List Byte).length : Nat) : Int) < 4 ∧ (4 : Int) ≠ -1 ∧
    ∃ r, Collation_binary.WeightString growDouble (-1) ⟨⟩ Slice.nil [97, 98] 4 = some r
      ∧ r.data = [97, 98] ∧ r.len = ([97, 98] : List Byte).length :=
  ⟨by decide, by decide,
    binary_fixed_count_length growDouble (-1) ⟨⟩ [97, 98] 4 (by decide) (by decide)⟩

/-- C7 (capacity-bounded pad-to-max): for each of the three variants (the
case-insensitive one with a 256-entry table), when `dst` has capacity `k` and
`len(dst) + len(src) <= k`, `WeightString(dst, src, PadToMax)` returns a buffer
of length exactly `k`. `PadToMax` is a constant other than `0`, the first case
of the `switch`. -/
theorem pad_to_max_fills_capacity (grow : Nat → Nat → Nat) (PadToMax : Int)
    (hP : PadToMax ≠ 0) (c0 : Collation_binary) (cb : Collation_8bit_bin)
    (c : Collation_8bit_simple_ci) (h : c.sort.length = 256) (dst : Slice) (src : List Byte)
    (hcap : dst.len + src.length ≤ dst.cap) :
    (∃ r, c0.WeightString grow PadToMax dst src PadToMax = some r ∧ r.len = dst.cap)
    ∧ (∃ r, cb.WeightString grow PadToMax dst src PadToMax = some r ∧ r.len = dst.cap)
    ∧ (∃ r, c.WeightString grow PadToMax dst src PadToMax = some r ∧ r.len = dst.cap) := by
  obtain ⟨r0, h0, _, l0⟩ := binary_max grow PadToMax hP c0 dst src
  obtain ⟨r1, h1, _, l1⟩ := bin_max grow PadToMax hP cb dst src
  obtain ⟨r2, h2, _, l2⟩ := ci_max grow PadToMax hP c h dst src
  exact ⟨⟨r0, h0, l0 hcap⟩, ⟨r1, h1, l1 hcap⟩, ⟨r2, h2, l2 hcap⟩⟩

/-- Witness of C7: `"ab"` appended to a one-byte buffer of capacity five. -/
theorem pad_to_max_fills_capacity_witness :
    (-1 : Int) ≠ 0 ∧ foldTable.length = 256
    ∧ (Slice.mk [1] 5).len + ([97, 98] : List Byte).length ≤ (Slice.mk [1] 5).cap
    ∧ (∃ r, Collation_binary.WeightString growDouble (-1) ⟨⟩ ⟨[1], 5⟩ [97, 98] (-1) = some r
        ∧ r.len = (Slice.mk [1] 5).cap)
    ∧ (∃ r, (Collation_8bit_bin.mk []).WeightString growDouble (-1) ⟨[1], 5⟩ [97, 98] (-1)
        = some r ∧ r.len = (Slice.mk [1] 5).cap)
    ∧ (∃ r, (Collation_8bit_simple_ci.mk foldTable).WeightString growDouble (-1) ⟨[1], 5⟩
        [97, 98] (-1) = some r ∧ r.len = (Slice.mk [1] 5).cap) :=
  ⟨by decide, foldTable_length, by decide,
    pad_to_max_fills_capacity growDouble (-1) (by decide) ⟨⟩ ⟨[]⟩ ⟨foldTable⟩ foldTable_length
      ⟨[1], 5⟩ [97, 98] (by decide)⟩

/-- C8 (length formula): for each of the three variants (the case-insensitive
one with a 256-entry table) and every `src`, of length `n`,
`WeightStringLen(n)` equals `len(WeightString(nil, src, 0))`. -/
theorem weight_string_len_formula (grow : Nat → Nat → Nat) (PadToMax : Int)
    (c0 : Collation_binary) (cb : Collation_8bit_bin) (c : Collation_8bit_simple_ci)
    (h : c.sort.length = 256) (src : List Byte) :
    (∃ r, c0.WeightString grow PadToMax Slice.nil src 0 = some r
      ∧ c0.WeightStringLen (src.length : Int) = (r.len : Int))
    ∧ (∃ r, cb.WeightString grow PadToMax Slice.nil src 0 = some r
      ∧ cb.WeightStringLen (src.length : Int) = (r.len : Int))
    ∧ (∃ r, c.WeightString grow PadToMax Slice.nil src 0 = some r
      ∧ c.WeightStringLen (src.length : Int) = (r.len : Int)) := by
  obtain ⟨r0, h0, d0⟩ := binary_zero grow PadToMax c0 Slice.nil src
  obtain ⟨r1, h1, d1⟩ := bin_zero grow PadToMax cb Slice.nil src
  obtain ⟨r2, h2, d2⟩ := ci_zero grow PadToMax c h Slice.nil src
  refine ⟨⟨r0, h0, ?_⟩, ⟨r1, h1, ?_⟩, ⟨r2, h2, ?_⟩⟩
  · simp [Collation_binary.WeightStringLen, Slice.len, d0, Slice.nil]
  · simp [Collation_8bit_bin.WeightStringLen, Slice.len, d1, Slice.nil]
  · simp [Collation_8bit_simple_ci.WeightStringLen, Slice.len, d2, Slice.nil]

/-- Witness of C8: the three-byte input `"abc"`. -/
theorem weight_string_len_formula_witness :
    foldTable.length = 256
    ∧ (∃ r, Collation_binary.WeightString growDouble (-1) ⟨⟩ Slice.nil [97, 98, 99] 0 = some r
      ∧ Collation_binary.WeightStringLen ⟨⟩ (([97, 98, 99] : List Byte).length : Int)
        = (r.len : Int))
    ∧ (∃ r, (Collation_8bit_bin.mk []).WeightString growDouble (-1) Slice.nil [97, 98, 99] 0
        = some r
      ∧ (Collation_8bit_bin.mk []).WeightStringLen (([97, 98, 99] : List Byte).length : Int)
        = (r.len : Int))
    ∧ (∃ r, (Collation_8bit_simple_ci.mk foldTable).WeightString growDouble (-1) Slice.nil
        [97, 98, 99] 0 = some r
      ∧ (Collation_8bit_simple_ci.mk foldTable).WeightStringLen
        (([97, 98, 99] : List Byte).length : Int) = (r.len : Int)) :=
  ⟨foldTable_length,
    weight_string_len_formula growDouble (-1) ⟨⟩ ⟨[]⟩ ⟨foldTable⟩ foldTable_length [97, 98, 99]⟩

/-- C9 (binary exactness): for `Collation_binary` and a `numCodepoints` that is
`0`, `PadToMax` or positive, `WeightString(dst, src, numCodepoints)` is `dst`,
then a byte-for-byte copy of `src` (all of it for `0` and `PadToMax`, its first
`min(len(src), numCodepoints)` bytes otherwise), then padding made of `0x00`
bytes only; no padding byte is the space character `0x20`. -/
theorem binary_exactness (grow : Nat → Nat → Nat) (PadToMax : Int) (c : Collation_binary)
    (dst : Slice) (src : List Byte) (n : Int) (hn : n = 0 ∨ n = PadToMax ∨ 0 < n) :
    ∃ r pad, c.WeightString grow PadToMax dst src n = some r
      ∧ r.data = dst.data
          ++ src.take (if n = 0 ∨ n = PadToMax then src.length else min src.length n.toNat)
          ++ pad
      ∧ (∀ b ∈ pad, b = (0x00 : Byte)) ∧ (0x20 : Byte) ∉ pad := by
  by_cases h0 : n = 0
  · subst h0
    obtain ⟨r, hr, hd⟩ := binary_zero grow PadToMax c dst src
    exact ⟨r, [], hr, by simp [hd], by simp, by simp⟩
  · by_cases hP : n = PadToMax
    · subst hP
      obtain ⟨r, hr, ⟨k, hk⟩, _⟩ := binary_max grow n h0 c dst src
      refine ⟨r, List.replicate k 0, hr, by simp [hk], ?_, ?_⟩
      · intro b hb
        exact (List.mem_replicate.mp hb).2
      · intro hb
        exact absurd (List.mem_replicate.mp hb).2 (by decide)
    · have hpos : 0 < n := by omega
      obtain ⟨r, hr, hd⟩ := binary_count grow PadToMax c dst src n hpos hP
      refine ⟨r, [], hr, ?_, by simp, by simp⟩
      rw [hd, Nat.min_comm]
      simp [h0, hP]

/-- Witness of C9: pad-to-max (`PadToMax = -1`) of `" a"` into a buffer of
capacity five. -/
theorem binary_exactness_witness :
    ((-1 : Int) = 0 ∨ (-1 : Int) = -1 ∨ (0 : Int) < -1) ∧
    ∃ r pad, Collation_binary.WeightString growDouble (-1) ⟨⟩ ⟨[1], 5⟩ [32, 97] (-1) = some r
      ∧ r.data = (Slice.mk [1] 5).data
          ++ ([32, 97] : List Byte).take
              (if (-1 : Int) = 0 ∨ (-1 : Int) = -1 then ([32, 97] : List Byte).length
                else min ([32, 97] : List Byte).length (-1 : Int).toNat)
          ++ pad
      ∧ (∀ b ∈ pad, b = (0x00 : Byte)) ∧ (0x20 : Byte) ∉ pad :=
  ⟨by decide, binary_exactness growDouble (-1) ⟨⟩ ⟨[1], 5⟩ [32, 97] (-1) (by decide)⟩

/-- C10, as stated, fails: with the negative count `-2` (and `PadToMax = -1`)
the slice expression `src[:copyCodepoints]` is out of range in each of the
three variants, so `WeightString(nil, "a", -2)` returns no buffer. -/
theorem negative_count_out_of_range :
    Collation_binary.WeightString growDouble (-1) ⟨⟩ Slice.nil [97] (-2) = none
    ∧ (Collation_8bit_bin.mk []).WeightString growDouble (-1) Slice.nil [97] (-2) = none
    ∧ (Collation_8bit_simple_ci.mk foldTable).WeightString growDouble (-1) Slice.nil [97] (-2)
        = none :=
  have h := negative_count_panics growDouble (-1) Slice.nil [97] (-2) (by decide) (by decide)
  ⟨h.1, h.2.1 ⟨[]⟩, h.2.2 ⟨foldTable⟩⟩

/-- C10, amended: for each of the three variants (the case-insensitive one with
a 256-entry table), every `dst`, every `src` and every `numCodepoints` that is
`0`, positive or `PadToMax`, `WeightString` returns a buffer: `dst`, then the
encoding of the first `min(len(src), numCodepoints)` bytes of `src` in
fixed-count mode (of all of `src` for `0` and `PadToMax`), then padding bytes
only (`0x00` for `Collation_binary`, `0x20` for the other two); outside
pad-to-max mode the padding is empty for `Collation_binary` and makes up the
count for the other two. -/
theorem weight_string_total (grow : Nat → Nat → Nat) (PadToMax : Int)
    (c0 : Collation_binary) (cb : Collation_8bit_bin) (c : Collation_8bit_simple_ci)
    (h : c.sort.length = 256) (dst : Slice) (src : List Byte) (n : Int)
    (hn : 0 ≤ n ∨ n = PadToMax) :
    (∃ r k, c0.WeightString grow PadToMax dst src n = some r
      ∧ r.data = dst.data
          ++ src.take (if n = 0 ∨ n = PadToMax then src.length else min src.length n.toNat)
          ++ List.replicate k (0x00 : Byte)
      ∧ (n ≠ PadToMax → k = 0))
    ∧ (∃ r k, cb.WeightString grow PadToMax dst src n = some r
      ∧ r.data = dst.data
          ++ src.take (if n = 0 ∨ n = PadToMax then src.length else min src.length n.toNat)
          ++ List.replicate k (0x20 : Byte)
      ∧ (n ≠ PadToMax → k = n.toNat - min src.length n.toNat))
    ∧ (∃ r k, c.WeightString grow PadToMax dst src n = some r
      ∧ r.data = dst.data
          ++ (src.take (if n = 0 ∨ n = PadToMax then src.length
                else min src.length n.toNat)).map (fun x => c.sort.getD x.val 0)
          ++ List.replicate k (0x20 : Byte)
      ∧ (n ≠ PadToMax → k = n.toNat - min src.length n.toNat)) := by
  by_cases hz : n = 0
  · subst hz
    obtain ⟨r0, h0, d0⟩ := binary_zero grow PadToMax c0 dst src
    obtain ⟨r1, h1, d1⟩ := bin_zero grow PadToMax cb dst src
    obtain ⟨r2, h2, d2⟩ := ci_zero grow PadToMax c h dst src
    have hi : ((0 : Int) = 0 ∨ (0 : Int) = PadToMax) := Or.inl rfl
    refine ⟨⟨r0, 0, h0, ?_, fun _ => rfl⟩, ⟨r1, 0, h1, ?_, fun _ => by simp⟩,
      ⟨r2, 0, h2, ?_, fun _ => by simp⟩⟩
    · rw [if_pos hi, List.take_length, List.replicate_zero, List.append_nil]
      exact d0
    · rw [if_pos hi, List.take_length, List.replicate_zero, List.append_nil]
      exact d1
    · rw [if_pos hi, List.take_length, List.replicate_zero, List.append_nil]
      exact d2
  · by_cases hP : n = PadToMax
    · subst hP
      obtain ⟨r0, h0, ⟨k0, d0⟩, _⟩ := binary_max grow n hz c0 dst src
      obtain ⟨r1, h1, ⟨k1, d1⟩, _⟩ := bin_max grow n hz cb dst src
      obtain ⟨r2, h2, ⟨k2, d2⟩, _⟩ := ci_max grow n hz c h dst src
      have hi : (n = 0 ∨ n = n) := Or.inr rfl
      refine ⟨⟨r0, k0, h0, ?_, fun hne => absurd rfl hne⟩,
        ⟨r1, k1, h1, ?_, fun hne => absurd rfl hne⟩,
        ⟨r2, k2, h2, ?_, fun hne => absurd rfl hne⟩⟩
      · rw [if_pos hi, List.take_length]
        exact d0
      · rw [if_pos hi, List.take_length]
        exact d1
      · rw [if_pos hi, List.take_length]
        exact d2
    · have hpos : 0 < n := by omega
      obtain ⟨r0, h0, d0⟩ := binary_count grow PadToMax c0 dst src n hpos hP
      obtain ⟨r1, h1, d1⟩ := bin_count grow PadToMax cb dst src n hpos hP
      obtain ⟨r2, h2, d2⟩ := ci_count grow PadToMax c h dst src n hpos hP
      have hc : min n.toNat src.length = min src.length n.toNat := Nat.min_comm _ _
      have hi : ¬(n = 0 ∨ n = PadToMax) := not_or.mpr ⟨hz, hP⟩
      rw [hc] at d0 d1 d2
      refine ⟨⟨r0, 0, h0, ?_, fun _ => rfl⟩,
        ⟨r1, n.toNat - min src.length n.toNat, h1, ?_, fun _ => rfl⟩,
        ⟨r2, n.toNat - min src.length n.toNat, h2, ?_, fun _ => rfl⟩⟩
      · rw [if_neg hi, List.replicate_zero, List.append_nil]
        exact d0
      · rw [if_neg hi]
        exact d1
      · rw [if_neg hi]
        exact d2

/-- Witness of the amended C10: a count larger than the input, `n = 7` for
`"a"`. -/
theorem weight_string_total_witness :
    foldTable.length = 256 ∧ ((0 : Int) ≤ 7 ∨ (7 : Int) = -1)
    ∧ (∃ r k, Collation_binary.WeightString growDouble (-1) ⟨⟩ Slice.nil [97] 7 = some r
      ∧ r.data = Slice.nil.data
          ++ ([97] : List Byte).take (if (7 : Int) = 0 ∨ (7 : Int) = -1
              then ([97] : List Byte).length else min ([97] : List Byte).length (7 : Int).toNat)
          ++ List.replicate k (0x00 : Byte)
      ∧ ((7 : Int) ≠ -1 → k = 0))
    ∧ (∃ r k, (Collation_8bit_bin.mk []).WeightString growDouble (-1) Slice.nil [97] 7 = some r
      ∧ r.data = Slice.nil.data
          ++ ([97] : List Byte).take (if (7 : Int) = 0 ∨ (7 : Int) = -1
              then ([97] : List Byte).length else min ([97] : List Byte).length (7 : Int).toNat)
          ++ List.replicate k (0x20 : Byte)
      ∧ ((7 : Int) ≠ -1 → k = (7 : Int).toNat - min ([97] : List Byte).length (7 : Int).toNat))
    ∧ (∃ r k, (Collation_8bit_simple_ci.mk foldTable).WeightString growDouble (-1) Slice.nil
        [97] 7 = some r
      ∧ r.data = Slice.nil.data
          ++ (([97] : List Byte).take (if (7 : Int) = 0 ∨ (7 : Int) = -1
              then ([97] : List Byte).length
              else min ([97] : List Byte).length (7 : Int).toNat)).map
                (fun x => foldTable.getD x.val 0)
          ++ List.replicate k (0x20 : Byte)
      ∧ ((7 : Int) ≠ -1 → k = (7 : Int).toNat - min ([97] : List Byte).length (7 : Int).toNat)) :=
  ⟨foldTable_length, by decide,
    weight_string_total growDouble (-1) ⟨⟩ ⟨[]⟩ ⟨foldTable⟩ foldTable_length Slice.nil [97] 7
      (by decide)⟩

/-! ## Case folding -/

theorem weights_map_eq (c : Collation_8bit_simple_ci) (h : c.sort.length = 256)
    (a b : List Byte) (hlen : a.length = b.length)
    (hw : ∀ (i : Nat) (h1 : i < a.length) (h2 : i < b.length),
      c.sort[(a[i]).val]? = c.sort[(b[i]).val]?) :
    a.map c.weight = b.map c.weight := by
  apply List.ext_getElem
  · simp [hlen]
  · intro i h1 h2
    simp only [List.length_map] at h1 h2
    have := hw i h1 h2
    rw [lookup_sort c h, lookup_sort c h] at this
    simpa using Option.some.inj this

theorem encodeLoop_congr (grow : Nat → Nat → Nat) (c : Collation_8bit_simple_ci)
    (h : c.sort.length = 256) :
    ∀ (xs ys : List Byte) (dst : Slice), xs.map c.weight = ys.map c.weight →
      Collation_8bit_simple_ci.encodeLoop grow c.sort xs dst
        = Collation_8bit_simple_ci.encodeLoop grow c.sort ys dst := by
  intro xs
  induction xs with
  | nil =>
    intro ys dst hm
    cases ys with
    | nil => rfl
    | cons y ys => simp at hm
  | cons x xs ih =>
    intro ys dst hm
    cases ys with
    | nil => simp at hm
    | cons y ys =>
      simp only [List.map_cons, List.cons.injEq] at hm
      simp only [Collation_8bit_simple_ci.encodeLoop, lookup_sort c h, hm.1]
      exact ih ys _ hm.2

theorem ci_congr (grow : Nat → Nat → Nat) (P : Int) (c : Collation_8bit_simple_ci)
    (h : c.sort.length = 256) (a b : List Byte) (hlen : a.length = b.length)
    (hm : a.map c.weight = b.map c.weight) (dst : Slice) (n : Int) :
    c.WeightString grow P dst a n = c.WeightString grow P dst b n := by
  simp only [Collation_8bit_simple_ci.WeightString, sliceTo_sort c h, hlen]
  generalize switchPad P (b.length : Int) n = sw
  obtain ⟨n1, k, pm⟩ := sw
  simp only [sliceTo, hlen]
  by_cases hk : 0 ≤ k ∧ k ≤ (b.length : Int)
  · have hmt : (a.take k.toNat).map c.weight = (b.take k.toNat).map c.weight := by
      rw [List.map_take, List.map_take, hm]
    simp only [if_pos hk, encodeLoop_congr grow c h _ _ dst hmt]
  · simp only [if_neg hk]

theorem ci_some (grow : Nat → Nat → Nat) (P : Int) (c : Collation_8bit_simple_ci)
    (h : c.sort.length = 256) (dst : Slice) (src : List Byte) (n : Int)
    (hn : 0 ≤ n ∨ n = P) : ∃ r, c.WeightString grow P dst src n = some r := by
  by_cases hz : n = 0
  · subst hz
    obtain ⟨r, hr, _⟩ := ci_zero grow P c h dst src
    exact ⟨r, hr⟩
  · by_cases hP : n = P
    · subst hP
      obtain ⟨r, hr, _⟩ := ci_max grow n hz c h dst src
      exact ⟨r, hr⟩
    · obtain ⟨r, hr, _⟩ := ci_count grow P c h dst src n (by omega) hP
      exact ⟨r, hr⟩

theorem foldTable_weight (x : Byte) :
    (Collation_8bit_simple_ci.mk foldTable).weight x
      = if 97 ≤ x.val ∧ x.val ≤ 122 then x - 32 else x := by
  have h1 := lookup_sort ⟨foldTable⟩ foldTable_length x
  simp only [foldTable_lookup] at h1
  exact (Option.some.inj h1).symm

theorem identityTable_weight (x : Byte) :
    (Collation_8bit_simple_ci.mk identityTable).weight x = x := by
  have h1 := lookup_sort ⟨identityTable⟩ identityTable_length x
  simp only [identityTable_lookup] at h1
  exact (Option.some.inj h1).symm

/-- C11 (case folding): with a 256-entry sort table, when `a` and `b` have the
same length and `sort[a[i]] = sort[b[i]]` at every position, `Collate(a, b,
false)` is `0` and, for every `dst` and every `numCodepoints` that is `0` or
positive, `WeightString(dst, a, numCodepoints)` and `WeightString(dst, b,
numCodepoints)` return the same buffer. -/
theorem simple_ci_case_folding (grow : Nat → Nat → Nat) (PadToMax : Int)
    (c : Collation_8bit_simple_ci) (h : c.sort.length = 256) (a b : List Byte)
    (hlen : a.length = b.length)
    (hw : ∀ (i : Nat) (h1 : i < a.length) (h2 : i < b.length),
      c.sort[(a[i]).val]? = c.sort[(b[i]).val]?)
    (dst : Slice) (n : Int) (hn : 0 ≤ n) :
    c.Collate a b false = some 0
    ∧ ∃ r, c.WeightString grow PadToMax dst a n = some r
        ∧ c.WeightString grow PadToMax dst b n = some r := by
  have hm := weights_map_eq c h a b hlen hw
  constructor
  · have hnone : firstDiff c.weight a b = none := by
      apply firstDiff_none_of_weights_eq
      intro i h1 h2
      have := hw i h1 h2
      rw [lookup_sort c h, lookup_sort c h] at this
      exact Option.some.inj this
    rw [Collate_eq c h a b false, hnone]
    simp [hlen]
  · obtain ⟨r, hr⟩ := ci_some grow PadToMax c h dst a n (Or.inl hn)
    exact ⟨r, hr, by rw [← ci_congr grow PadToMax c h a b hlen hm dst n, hr]⟩

/-- Witness of C11: the folding table, `"ABC"` and `"abc"`, encoded to five
units. -/
theorem simple_ci_case_folding_witness :
    foldTable.length = 256
    ∧ ([65, 66, 67] : List Byte).length = ([97, 98, 99] : List Byte).length
    ∧ (0 : Int) ≤ 5
    ∧ (Collation_8bit_simple_ci.mk foldTable).Collate [65, 66, 67] [97, 98, 99] false = some 0
    ∧ ∃ r, (Collation_8bit_simple_ci.mk foldTable).WeightString growDouble (-1) ⟨[1], 1⟩
          [65, 66, 67] 5 = some r
        ∧ (Collation_8bit_simple_ci.mk foldTable).WeightString growDouble (-1) ⟨[1], 1⟩
          [97, 98, 99] 5 = some r :=
  ⟨foldTable_length, by decide, by decide,
    simple_ci_case_folding growDouble (-1) ⟨foldTable⟩ foldTable_length [65, 66, 67]
      [97, 98, 99] (by decide)
      (by
        intro i h1 h2
        simp only [foldTable_lookup]
        have hi : i = 0 ∨ i = 1 ∨ i = 2 := by
          simp only [List.length_cons, List.length_nil] at h2
          omega
        rcases hi with rfl | rfl | rfl <;> rfl)
      ⟨[1], 1⟩ 5 (by decide)⟩

/-! ## Fixed-width encodings and the comparison -/

theorem lexCompare_self : ∀ (xs : List Byte), lexCompare xs xs = 0 := by
  intro xs
  induction xs with
  | nil => rfl
  | cons x xs ih => simp [lexCompare, ih]

theorem firstDiff_some_sign (w : Byte → Byte) :
    ∀ (a b pa pb : List Byte) (d : Int), firstDiff w a b = some d →
      Int.sign d = Int.sign (lexCompare (a.map w ++ pa) (b.map w ++ pb)) := by
  intro a
  induction a with
  | nil => intro b pa pb d hd; simp [firstDiff] at hd
  | cons x xs ih =>
    intro b pa pb d hd
    cases b with
    | nil => simp [firstDiff] at hd
    | cons y ys =>
      simp only [firstDiff] at hd
      simp only [List.map_cons, List.cons_append, lexCompare]
      by_cases hlt : w x < w y
      · have hne : w x ≠ w y := ne_of_lt hlt
        have hv : (w x).val < (w y).val := hlt
        rw [if_pos hne] at hd
        have hd2 := Option.some.inj hd
        rw [if_pos hlt, ← hd2, Int.sign_eq_neg_one_of_neg (by omega)]
        rfl
      · by_cases hgt : w y < w x
        · have hne : w x ≠ w y := (ne_of_lt hgt).symm
          have hv : (w y).val < (w x).val := hgt
          rw [if_pos hne] at hd
          have hd2 := Option.some.inj hd
          rw [if_neg hlt, if_pos hgt, ← hd2, Int.sign_eq_one_of_pos (by omega)]
          rfl
        · have heq : w x = w y := le_antisymm (not_lt.mp hgt) (not_lt.mp hlt)
          rw [if_neg (by simp [heq])] at hd
          rw [if_neg hlt, if_neg hgt]
          exact ih ys pa pb d hd

theorem firstDiff_none_weights (w : Byte → Byte) :
    ∀ (a b : List Byte), firstDiff w a b = none →
      ∀ (i : Nat) (h1 : i < a.length) (h2 : i < b.length), w a[i] = w b[i] := by
  intro a
  induction a with
  | nil => intro b _ i h1; simp at h1
  | cons x xs ih =>
    intro b hn i h1 h2
    cases b with
    | nil => simp at h2
    | cons y ys =>
      simp only [firstDiff] at hn
      by_cases hne : w x ≠ w y
      · rw [if_pos hne] at hn
        simp at hn
      · rw [if_neg hne] at hn
        cases i with
        | zero => simpa using hne
        | succ i =>
          simp only [List.getElem_cons_succ]
          exact ih ys hn i (by simpa using h1) (by simpa using h2)

theorem firstDiff_none_map_eq (w : Byte → Byte) (a b : List Byte)
    (hlen : a.length = b.length) (hn : firstDiff w a b = none) : a.map w = b.map w := by
  apply List.ext_getElem
  · simp [hlen]
  · intro i h1 h2
    simp only [List.length_map] at h1 h2
    simpa using firstDiff_none_weights w a b hn i h1 h2

theorem identityTable_sliceTo : sliceTo identityTable 256 = some identityTable :=
  sliceTo_sort ⟨identityTable⟩ identityTable_length

/-- C12, as stated, fails: under the identity table `"a"` sorts before `"a "`
(`Collate` returns `-1`), while both have the weight string `"a "` when
encoded with `n = 2`, so the bytewise comparison returns `0`. -/
theorem fixed_width_order_disagreement :
    (Collation_8bit_simple_ci.mk identityTable).Collate [97] [97, 32] false = some (-1)
    ∧ (Collation_8bit_simple_ci.mk identityTable).WeightString growDouble (-1) Slice.nil
        [97] 2 = some ⟨[97, 32], 2⟩
    ∧ (Collation_8bit_simple_ci.mk identityTable).WeightString growDouble (-1) Slice.nil
        [97, 32] 2 = some ⟨[97, 32], 2⟩
    ∧ Int.sign (-1) ≠ Int.sign (lexCompare [97, 32] [97, 32]) := by
  refine ⟨?_, ?_, ?_, by decide⟩
  · rw [Collate_eq ⟨identityTable⟩ identityTable_length]
    simp only [firstDiff, identityTable_weight]
    decide
  · simp only [Collation_8bit_simple_ci.WeightString, identityTable_sliceTo]
    have hsw : switchPad (-1) (([97] : List Byte).length : Int) 2 = (2, 1, false) := by decide
    have hsl : sliceTo ([97] : List Byte) 1 = some [97] := by decide
    simp only [hsw, hsl, Collation_8bit_simple_ci.encodeLoop, identityTable_lookup]
    decide
  · simp only [Collation_8bit_simple_ci.WeightString, identityTable_sliceTo]
    have hsw : switchPad (-1) (([97, 32] : List Byte).length : Int) 2 = (2, 2, false) := by
      decide
    have hsl : sliceTo ([97, 32] : List Byte) 2 = some [97, 32] := by decide
    simp only [hsw, hsl, Collation_8bit_simple_ci.encodeLoop, identityTable_lookup]
    decide

theorem lexCompare_append_left :
    ∀ (p u v : List Byte), lexCompare (p ++ u) (p ++ v) = lexCompare u v := by
  intro p
  induction p with
  | nil => intro u v; rfl
  | cons x p ih =>
    intro u v
    simp only [List.cons_append, lexCompare, lt_irrefl, if_false]
    exact ih u v

theorem lexCompare_range :
    ∀ (u v : List Byte), lexCompare u v = -1 ∨ lexCompare u v = 0 ∨ lexCompare u v = 1 := by
  intro u
  induction u with
  | nil =>
    intro v
    cases v with
    | nil => exact Or.inr (Or.inl rfl)
    | cons y ys => exact Or.inl rfl
  | cons x xs ih =>
    intro v
    cases v with
    | nil => exact Or.inr (Or.inr rfl)
    | cons y ys =>
      simp only [lexCompare]
      by_cases hlt : x < y
      · rw [if_pos hlt]; exact Or.inl rfl
      · by_cases hgt : y < x
        · rw [if_neg hlt, if_pos hgt]; exact Or.inr (Or.inr rfl)
        · rw [if_neg hlt, if_neg hgt]; exact ih ys

theorem tail_against_padding :
    ∀ (t : List Byte) (p : Nat),
      lexCompare (t ++ List.replicate p spaceChar) (List.replicate (t.length + p) spaceChar) = 1
        ↔ sortsAbovePadding t = true := by
  intro t
  induction t with
  | nil =>
    intro p
    simp [lexCompare_self, sortsAbovePadding]
  | cons x t ih =>
    intro p
    have hl : (x :: t).length + p = (t.length + p) + 1 := by simp; omega
    rw [hl, List.replicate_succ]
    simp only [List.cons_append, lexCompare, sortsAbovePadding]
    by_cases hlt : x < spaceChar
    · have hne : x ≠ spaceChar := ne_of_lt hlt
      have hng : ¬ spaceChar < x := not_lt.mpr (le_of_lt hlt)
      simp [hlt, hne, hng]
    · by_cases hgt : spaceChar < x
      · have hne : x ≠ spaceChar := (ne_of_lt hgt).symm
        simp [hlt, hne, hgt]
      · have heq : x = spaceChar := le_antisymm (not_lt.mp hgt) (not_lt.mp hlt)
        rw [if_neg hlt, if_neg hgt, if_pos heq]
        exact ih p

theorem padding_against_tail :
    ∀ (t : List Byte) (p : Nat),
      lexCompare (List.replicate (t.length + p) spaceChar) (t ++ List.replicate p spaceChar) = -1
        ↔ sortsAbovePadding t = true := by
  intro t
  induction t with
  | nil =>
    intro p
    simp [lexCompare_self, sortsAbovePadding]
  | cons x t ih =>
    intro p
    have hl : (x :: t).length + p = (t.length + p) + 1 := by simp; omega
    rw [hl, List.replicate_succ]
    simp only [List.cons_append, lexCompare, sortsAbovePadding]
    by_cases hlt : x < spaceChar
    · have hne : x ≠ spaceChar := ne_of_lt hlt
      have hng : ¬ spaceChar < x := not_lt.mpr (le_of_lt hlt)
      simp [hlt, hne, hng]
    · by_cases hgt : spaceChar < x
      · have hne : x ≠ spaceChar := (ne_of_lt hgt).symm
        simp [hlt, hne, hgt]
      · have heq : x = spaceChar := le_antisymm (not_lt.mp hgt) (not_lt.mp hlt)
        rw [if_neg hgt, if_neg hlt, if_pos heq]
        exact ih p

theorem weights_split (w : Byte → Byte) (a b : List Byte) (hlen : b.length ≤ a.length)
    (hn : firstDiff w a b = none) : a.map w = b.map w ++ (a.drop b.length).map w := by
  have ht : (a.take b.length).map w = b.map w := by
    apply List.ext_getElem
    · simp [hlen]
    · intro i h1 h2
      simp only [List.length_map, List.length_take] at h1 h2
      simp only [List.getElem_map, List.getElem_take]
      exact firstDiff_none_weights w a b hn i (by omega) h2
  rw [← ht, ← List.map_append, List.take_append_drop]


theorem firstDiff_none_symm (w : Byte → Byte) (a b : List Byte)
    (hn : firstDiff w a b = none) : firstDiff w b a = none := by
  apply firstDiff_none_of_weights_eq
  intro i h1 h2
  exact (firstDiff_none_weights w a b hn i h2 h1).symm

theorem firstDiff_ne_none_iff (w : Byte → Byte) (a b : List Byte) :
    firstDiff w a b ≠ none
      ↔ ∃ (i : Nat) (h1 : i < a.length) (h2 : i < b.length), w a[i] ≠ w b[i] := by
  constructor
  · intro hne
    by_contra hall
    apply hne
    apply firstDiff_none_of_weights_eq
    intro i h1 h2
    by_contra hd
    exact hall ⟨i, h1, h2, hd⟩
  · rintro ⟨i, h1, h2, hd⟩ hn
    exact hd (firstDiff_none_weights w a b hn i h1 h2)

theorem sign_eq_one_lex (u v : List Byte) :
    (1 : Int) = Int.sign (lexCompare u v) ↔ lexCompare u v = 1 := by
  rcases lexCompare_range u v with h | h | h <;> rw [h] <;> decide

theorem sign_eq_neg_one_lex (u v : List Byte) :
    (-1 : Int) = Int.sign (lexCompare u v) ↔ lexCompare u v = -1 := by
  rcases lexCompare_range u v with h | h | h <;> rw [h] <;> decide

theorem fixed_width_core (w : Byte → Byte) (a b : List Byte) (p q : Nat)
    (hpq : a.length + p = b.length + q) :
    Int.sign (collateValue w a b)
        = Int.sign (lexCompare (a.map w ++ List.replicate p spaceChar)
            (b.map w ++ List.replicate q spaceChar))
      ↔ (firstDiff w a b ≠ none ∨ a.length = b.length
          ∨ (b.length < a.length ∧ sortsAbovePadding ((a.drop b.length).map w) = true)
          ∨ (a.length < b.length ∧ sortsAbovePadding ((b.drop a.length).map w) = true)) := by
  cases hfd : firstDiff w a b with
  | some d =>
    have hl := firstDiff_some_sign w a b (List.replicate p spaceChar)
      (List.replicate q spaceChar) d hfd
    have hv : collateValue w a b = d := by simp only [collateValue, hfd]
    rw [hv]
    exact ⟨fun _ => Or.inl (by simp), fun _ => hl⟩
  | none =>
    have hv : collateValue w a b = (a.length : Int) - (b.length : Int) := by
      simp only [collateValue, hfd]
    rw [hv]
    rcases Nat.lt_trichotomy a.length b.length with hlt | heq | hgt
    · have hsplit := weights_split w b a (le_of_lt hlt) (firstDiff_none_symm w a b hfd)
      have hp : p = ((b.drop a.length).map w).length + q := by
        simp only [List.length_map, List.length_drop]
        omega
      rw [Int.sign_eq_neg_one_of_neg (by omega), hsplit, List.append_assoc,
        lexCompare_append_left, hp, sign_eq_neg_one_lex, padding_against_tail]
      constructor
      · intro hs
        exact Or.inr (Or.inr (Or.inr ⟨hlt, hs⟩))
      · rintro (h1 | h2 | ⟨h3, _⟩ | ⟨_, h4⟩)
        · exact absurd rfl h1
        · omega
        · omega
        · exact h4
    · have hm := firstDiff_none_map_eq w a b heq hfd
      have hq : p = q := by omega
      rw [hm, hq, lexCompare_self, heq]
      simp [heq]
    · have hsplit := weights_split w a b (le_of_lt hgt) hfd
      have hq : q = ((a.drop b.length).map w).length + p := by
        simp only [List.length_map, List.length_drop]
        omega
      rw [Int.sign_eq_one_of_pos (by omega), hsplit, List.append_assoc,
        lexCompare_append_left, hq, sign_eq_one_lex, tail_against_padding]
      constructor
      · intro hs
        exact Or.inr (Or.inr (Or.inl ⟨hgt, hs⟩))
      · rintro (h1 | h2 | ⟨_, h3⟩ | ⟨h4, _⟩)
        · exact absurd rfl h1
        · omega
        · exact h3
        · omega

/-- C12, amended: with a 256-entry sort table, for all `a`, `b` and every
positive `n` other than `PadToMax` with `n >= max(len(a), len(b))`, the
comparison and both weight strings are produced, and the sign of
`Collate(a, b, false)` equals the sign of the bytewise lexicographic comparison
of `WeightString(nil, a, n)` with `WeightString(nil, b, n)` if and only if the
weights of `a` and `b` differ at some position below both lengths, or `a` and
`b` have the same length, or, among the weights of the bytes of the longer
value beyond the length of the shorter, the first that is not `0x20` exists and
is greater than `0x20`. -/
theorem simple_ci_fixed_width_agreement (grow : Nat → Nat → Nat) (PadToMax : Int)
    (c : Collation_8bit_simple_ci) (h : c.sort.length = 256) (a b : List Byte)
    (n : Int) (hpos : 0 < n) (hP : n ≠ PadToMax)
    (hn : ((max a.length b.length : Nat) : Int) ≤ n) :
    ∃ r wa wb, c.Collate a b false = some r
      ∧ c.WeightString grow PadToMax Slice.nil a n = some wa
      ∧ c.WeightString grow PadToMax Slice.nil b n = some wb
      ∧ (Int.sign r = Int.sign (lexCompare wa.data wb.data)
          ↔ ((∃ (i : Nat) (h1 : i < a.length) (h2 : i < b.length),
                c.sort[(a[i]).val]? ≠ c.sort[(b[i]).val]?)
            ∨ a.length = b.length
            ∨ (b.length < a.length
                ∧ sortsAbovePadding ((a.drop b.length).map (fun x => c.sort.getD x.val 0))
                    = true)
            ∨ (a.length < b.length
                ∧ sortsAbovePadding ((b.drop a.length).map (fun x => c.sort.getD x.val 0))
                    = true))) := by
  obtain ⟨wa, hwa, hda⟩ := ci_count grow PadToMax c h Slice.nil a n hpos hP
  obtain ⟨wb, hwb, hdb⟩ := ci_count grow PadToMax c h Slice.nil b n hpos hP
  have hma : min n.toNat a.length = a.length := by omega
  have hmb : min n.toNat b.length = b.length := by omega
  rw [hma, List.take_length] at hda
  rw [hmb, List.take_length] at hdb
  simp only [Slice.nil, List.nil_append] at hda hdb
  refine ⟨collateValue c.weight a b, wa, wb, Collate_false_eq c h a b, hwa, hwb, ?_⟩
  rw [hda, hdb]
  have hcore := fixed_width_core c.weight a b (n.toNat - a.length) (n.toNat - b.length)
    (by omega)
  have hex : firstDiff c.weight a b ≠ none
      ↔ ∃ (i : Nat) (h1 : i < a.length) (h2 : i < b.length),
          c.sort[(a[i]).val]? ≠ c.sort[(b[i]).val]? := by
    rw [firstDiff_ne_none_iff]
    constructor
    · rintro ⟨i, h1, h2, hd⟩
      refine ⟨i, h1, h2, ?_⟩
      rw [lookup_sort c h, lookup_sort c h]
      exact fun he => hd (Option.some.inj he)
    · rintro ⟨i, h1, h2, hd⟩
      refine ⟨i, h1, h2, ?_⟩
      rw [lookup_sort c h, lookup_sort c h] at hd
      exact fun he => hd (by rw [he])
  rw [hex] at hcore
  exact hcore

/-- Witness of the amended C12: the folding table, `"ab"` against `"a"`,
encoded with `n = 2`. -/
theorem simple_ci_fixed_width_agreement_witness :
    foldTable.length = 256 ∧ (0 : Int) < 2 ∧ (2 : Int) ≠ -1
    ∧ ((max ([97, 98] : List Byte).length ([97] : List Byte).length : Nat) : Int) ≤ 2
    ∧ ∃ r wa wb, (Collation_8bit_simple_ci.mk foldTable).Collate [97, 98] [97] false = some r
      ∧ (Collation_8bit_simple_ci.mk foldTable).WeightString growDouble (-1) Slice.nil
          [97, 98] 2 = some wa
      ∧ (Collation_8bit_simple_ci.mk foldTable).WeightString growDouble (-1) Slice.nil
          [97] 2 = some wb
      ∧ (Int.sign r = Int.sign (lexCompare wa.data wb.data)
          ↔ ((∃ (i : Nat) (_h1 : i < ([97, 98] : List Byte).length)
                (_h2 : i < ([97] : List Byte).length),
                foldTable[((([97, 98] : List Byte)[i])).val]?
                  ≠ foldTable[((([97] : List Byte)[i])).val]?)
            ∨ ([97, 98] : List Byte).length = ([97] : List Byte).length
            ∨ (([97] : List Byte).length < ([97, 98] : List Byte).length
                ∧ sortsAbovePadding ((([97, 98] : List Byte).drop ([97] : List Byte).length).map
                    (fun x => foldTable.getD x.val 0)) = true)
            ∨ (([97, 98] : List Byte).length < ([97] : List Byte).length
                ∧ sortsAbovePadding ((([97] : List Byte).drop ([97, 98] : List Byte).length).map
                    (fun x => foldTable.getD x.val 0)) = true))) :=
  ⟨foldTable_length, by decide, by decide, by decide,
    simple_ci_fixed_width_agreement growDouble (-1) ⟨foldTable⟩ foldTable_length [97, 98]
      [97] 2 (by decide) (by decide) (by decide)⟩

/-! ## The byte-order variants -/

theorem collationBinary_eq (a b : List Byte) :
    collationBinary a b false
      = some (if lexCompare (a.take (min a.length b.length)) (b.take (min a.length b.length)) ≠ 0
          then lexCompare (a.take (min a.length b.length)) (b.take (min a.length b.length))
          else (a.length : Int) - (b.length : Int)) := by
  have hm := cmpLen_eq a b
  have ha : sliceTo a ((min a.length b.length : Nat) : Int)
      = some (a.take (min a.length b.length)) := by
    rw [sliceTo_of_bounds a _ (by omega) (by omega), Int.toNat_ofNat]
  have hb : sliceTo b ((min a.length b.length : Nat) : Int)
      = some (b.take (min a.length b.length)) := by
    rw [sliceTo_of_bounds b _ (by omega) (by omega), Int.toNat_ofNat]
  simp only [collationBinary, hm, ha, hb, Bool.false_eq_true, if_false]
  split <;> rfl

theorem binary_sign_agreement :
    ∀ (a b : List Byte),
      Int.sign (if lexCompare (a.take (min a.length b.length))
            (b.take (min a.length b.length)) ≠ 0
          then lexCompare (a.take (min a.length b.length)) (b.take (min a.length b.length))
          else (a.length : Int) - (b.length : Int))
        = Int.sign (lexCompare a b) := by
  intro a
  induction a with
  | nil =>
    intro b
    cases b with
    | nil => simp [lexCompare]
    | cons y ys =>
      simp only [List.length_nil, Nat.zero_min, List.take_zero, lexCompare, ne_eq,
        not_true_eq_false, if_false, List.length_cons]
      rw [Int.sign_eq_neg_one_of_neg (by omega)]
      rfl
  | cons x xs ih =>
    intro b
    cases b with
    | nil =>
      simp only [List.length_nil, Nat.min_zero, List.take_zero, lexCompare, ne_eq,
        not_true_eq_false, if_false, List.length_cons]
      rw [Int.sign_eq_one_of_pos (by omega)]
      rfl
    | cons y ys =>
      simp only [List.length_cons, Nat.succ_min_succ, List.take_succ_cons, lexCompare]
      by_cases hlt : x < y
      · simp [hlt]
      · by_cases hgt : y < x
        · simp [hlt, hgt]
        · simp only [if_neg hlt, if_neg hgt]
          rw [← ih ys]
          have he : ((xs.length + 1 : Nat) : Int) - ((ys.length + 1 : Nat) : Int)
              = (xs.length : Int) - (ys.length : Int) := by omega
          rw [he]

/-- C13 (order agreement, byte-order variants): for `Collation_binary` and
`Collation_8bit_bin`, with `collationBinary` the comparison of section 4.2, the
sign of `Collate(a, b, false)` equals the sign of the bytewise lexicographic
comparison of `WeightString(nil, a, 0)` with `WeightString(nil, b, 0)`. -/
theorem byte_order_agreement (grow : Nat → Nat → Nat) (PadToMax : Int)
    (c0 : Collation_binary) (cb : Collation_8bit_bin) (a b : List Byte) :
    (∃ r wa wb, c0.Collate a b false = some r
      ∧ c0.WeightString grow PadToMax Slice.nil a 0 = some wa
      ∧ c0.WeightString grow PadToMax Slice.nil b 0 = some wb
      ∧ Int.sign r = Int.sign (lexCompare wa.data wb.data))
    ∧ (∃ r wa wb, cb.Collate a b false = some r
      ∧ cb.WeightString grow PadToMax Slice.nil a 0 = some wa
      ∧ cb.WeightString grow PadToMax Slice.nil b 0 = some wb
      ∧ Int.sign r = Int.sign (lexCompare wa.data wb.data)) := by
  obtain ⟨wa0, hwa0, hda0⟩ := binary_zero grow PadToMax c0 Slice.nil a
  obtain ⟨wb0, hwb0, hdb0⟩ := binary_zero grow PadToMax c0 Slice.nil b
  obtain ⟨wa1, hwa1, hda1⟩ := bin_zero grow PadToMax cb Slice.nil a
  obtain ⟨wb1, hwb1, hdb1⟩ := bin_zero grow PadToMax cb Slice.nil b
  refine ⟨⟨_, wa0, wb0, collationBinary_eq a b, hwa0, hwb0, ?_⟩,
    ⟨_, wa1, wb1, collationBinary_eq a b, hwa1, hwb1, ?_⟩⟩
  · rw [hda0, hdb0]
    simp only [Slice.nil, List.nil_append]
    exact binary_sign_agreement a b
  · rw [hda1, hdb1]
    simp only [Slice.nil, List.nil_append]
    exact binary_sign_agreement a b

/-! ## `Collate` as a comparator -/

theorem collateValue_nil_left (w : Byte → Byte) (b : List Byte) :
    collateValue w [] b = -(b.length : Int) := by
  simp [collateValue, firstDiff]

theorem collateValue_cons_nil (w : Byte → Byte) (x : Byte) (xs : List Byte) :
    collateValue w (x :: xs) [] = (xs.length : Int) + 1 := by
  simp [collateValue, firstDiff]

theorem collateValue_cons_cons (w : Byte → Byte) (x y : Byte) (xs ys : List Byte) :
    collateValue w (x :: xs) (y :: ys)
      = if w x ≠ w y then ((w x).val : Int) - ((w y).val : Int) else collateValue w xs ys := by
  simp only [collateValue, firstDiff]
  by_cases hne : w x ≠ w y
  · simp only [if_pos hne]
  · simp only [if_neg hne, List.length_cons]
    cases firstDiff w xs ys with
    | some r => rfl
    | none =>
      show ((xs.length + 1 : Nat) : Int) - ((ys.length + 1 : Nat) : Int)
        = (xs.length : Int) - (ys.length : Int)
      omega

theorem collateValue_swap (w : Byte → Byte) :
    ∀ (a b : List Byte), collateValue w b a = -collateValue w a b := by
  intro a
  induction a with
  | nil =>
    intro b
    cases b with
    | nil => simp [collateValue, firstDiff]
    | cons y ys => rw [collateValue_cons_nil, collateValue_nil_left]; simp
  | cons x xs ih =>
    intro b
    cases b with
    | nil => rw [collateValue_cons_nil, collateValue_nil_left]; simp
    | cons y ys =>
      rw [collateValue_cons_cons, collateValue_cons_cons]
      by_cases hne : w x ≠ w y
      · rw [if_pos hne, if_pos (Ne.symm hne)]
        omega
      · have heq : w x = w y := not_not.mp hne
        rw [if_neg hne, if_neg (by simp [heq])]
        exact ih ys

theorem collateValue_trans (w : Byte → Byte) :
    ∀ (a b c : List Byte), collateValue w a b ≤ 0 → collateValue w b c ≤ 0 →
      collateValue w a c ≤ 0 := by
  intro a
  induction a with
  | nil =>
    intro b c _ _
    rw [collateValue_nil_left]
    omega
  | cons x xs ih =>
    intro b c hab hbc
    cases b with
    | nil =>
      rw [collateValue_cons_nil] at hab
      omega
    | cons y ys =>
      cases c with
      | nil =>
        rw [collateValue_cons_nil] at hbc
        omega
      | cons z zs =>
        rw [collateValue_cons_cons] at hab hbc ⊢
        by_cases hxy : w x = w y
        · by_cases hyz : w y = w z
          · have hxz : w x = w z := hxy.trans hyz
            rw [if_neg (by simp [hxy])] at hab
            rw [if_neg (by simp [hyz])] at hbc
            rw [if_neg (by simp [hxz])]
            exact ih ys zs hab hbc
          · have hxz : w x ≠ w z := by rw [hxy]; exact hyz
            rw [if_pos hyz] at hbc
            rw [if_pos hxz, hxy]
            exact hbc
        · rw [if_pos hxy] at hab
          by_cases hyz : w y = w z
          · have hxz : w x ≠ w z := by rw [← hyz]; exact hxy
            rw [if_pos hxz, ← hyz]
            exact hab
          · rw [if_pos hyz] at hbc
            have hxz : w x ≠ w z := by
              intro he
              have h1 : (w x).val ≠ (w y).val := fun hv => hxy (Fin.ext hv)
              have h2 : (w y).val ≠ (w z).val := fun hv => hyz (Fin.ext hv)
              have h3 : (w x).val = (w z).val := by rw [he]
              omega
            rw [if_pos hxz]
            omega

/-- C14 (antisymmetry): with a 256-entry sort table, `Collate(a, b, false)`
and `Collate(b, a, false)` both return, and the second value is the negation
of the first. -/
theorem simple_ci_antisymmetric (c : Collation_8bit_simple_ci) (h : c.sort.length = 256)
    (a b : List Byte) :
    ∃ r, c.Collate a b false = some r ∧ c.Collate b a false = some (-r) :=
  ⟨collateValue c.weight a b, Collate_false_eq c h a b, by
    rw [Collate_false_eq c h b a, collateValue_swap c.weight a b]⟩

/-- Witness of C14: the folding table, `"ab"` against `"AC"`. -/
theorem simple_ci_antisymmetric_witness :
    foldTable.length = 256
    ∧ ∃ r, (Collation_8bit_simple_ci.mk foldTable).Collate [97, 98] [65, 67] false = some r
      ∧ (Collation_8bit_simple_ci.mk foldTable).Collate [65, 67] [97, 98] false = some (-r) :=
  ⟨foldTable_length, simple_ci_antisymmetric ⟨foldTable⟩ foldTable_length [97, 98] [65, 67]⟩

/-- C15 (transitivity): with a 256-entry sort table, when `Collate(a, b, false)`
and `Collate(b, d, false)` return values that are at most `0`, `Collate(a, d,
false)` returns a value that is at most `0`. -/
theorem simple_ci_transitive (c : Collation_8bit_simple_ci) (h : c.sort.length = 256)
    (a b d : List Byte) (r1 r2 : Int) (h1 : c.Collate a b false = some r1)
    (h2 : c.Collate b d false = some r2) (hle1 : r1 ≤ 0) (hle2 : r2 ≤ 0) :
    ∃ r3, c.Collate a d false = some r3 ∧ r3 ≤ 0 := by
  rw [Collate_false_eq c h a b] at h1
  rw [Collate_false_eq c h b d] at h2
  have e1 := Option.some.inj h1
  have e2 := Option.some.inj h2
  refine ⟨collateValue c.weight a d, Collate_false_eq c h a d, ?_⟩
  exact collateValue_trans c.weight a b d (by rw [e1]; exact hle1) (by rw [e2]; exact hle2)

/-- Witness of C15: the folding table, `"a"`, `"B"` and `"b!"`. -/
theorem simple_ci_transitive_witness :
    foldTable.length = 256
    ∧ (Collation_8bit_simple_ci.mk foldTable).Collate [97] [66] false = some (-1)
    ∧ (Collation_8bit_simple_ci.mk foldTable).Collate [66] [98, 33] false = some (-1)
    ∧ (-1 : Int) ≤ 0
    ∧ ∃ r3, (Collation_8bit_simple_ci.mk foldTable).Collate [97] [98, 33] false = some r3
      ∧ r3 ≤ 0 :=
  have e1 : (Collation_8bit_simple_ci.mk foldTable).Collate [97] [66] false = some (-1) := by
    rw [Collate_false_eq ⟨foldTable⟩ foldTable_length]
    simp only [collateValue, firstDiff, foldTable_weight]
    decide
  have e2 : (Collation_8bit_simple_ci.mk foldTable).Collate [66] [98, 33] false = some (-1) := by
    rw [Collate_false_eq ⟨foldTable⟩ foldTable_length]
    simp only [collateValue, firstDiff, foldTable_weight]
    decide
  ⟨foldTable_length, e1, e2, by decide,
    simple_ci_transitive ⟨foldTable⟩ foldTable_length [97] [66] [98, 33] (-1) (-1) e1 e2
      (by decide) (by decide)⟩

/-- C16 (padding routine): `weightStringPadingSimple(p, dst, r, false)` returns
`dst` followed by exactly `max(r, 0)` copies of `p`, and `dst` itself when
`r <= 0`; `weightStringPadingSimple(p, dst, r, true)` returns `dst` followed by
exactly `cap - len` copies of `p` whatever `r` is, so the result has length
`cap` and its capacity is still `cap`. A slice has `len <= cap`. -/
theorem padding_routine (grow : Nat → Nat → Nat) (p : Byte) (dst : Slice) (r : Int)
    (hwf : dst.len ≤ dst.cap) :
    (weightStringPadingSimple grow p dst r false).data
        = dst.data ++ List.replicate (max r 0).toNat p
    ∧ (r ≤ 0 → weightStringPadingSimple grow p dst r false = dst)
    ∧ (weightStringPadingSimple grow p dst r true).data
        = dst.data ++ List.replicate (dst.cap - dst.len) p
    ∧ (weightStringPadingSimple grow p dst r true).len = dst.cap
    ∧ (weightStringPadingSimple grow p dst r true).cap = dst.cap := by
  have hmax : (max r 0).toNat = r.toNat := by omega
  obtain ⟨hd, hc⟩ := padToCapLoop_full grow p (dst.cap - dst.len) dst hwf (le_refl _)
  refine ⟨?_, ?_, ?_, padding_max_len grow p dst r hwf, ?_⟩
  · rw [hmax]
    exact padding_count_data grow p dst r
  · intro hr
    have h0 : r.toNat = 0 := by omega
    simp only [weightStringPadingSimple, Bool.false_eq_true, if_false, h0, padCountLoop]
  · simp only [weightStringPadingSimple, if_true]
    exact hd
  · simp only [weightStringPadingSimple, if_true]
    exact hc

/-- Witness of C16: a one-byte buffer of capacity four, residual `2`. -/
theorem padding_routine_witness :
    (Slice.mk [1] 4).len ≤ (Slice.mk [1] 4).cap
    ∧ (weightStringPadingSimple growDouble 32 ⟨[1], 4⟩ 2 false).data
        = (Slice.mk [1] 4).data ++ List.replicate (max (2 : Int) 0).toNat (32 : Byte)
    ∧ ((2 : Int) ≤ 0 → weightStringPadingSimple growDouble 32 ⟨[1], 4⟩ 2 false = ⟨[1], 4⟩)
    ∧ (weightStringPadingSimple growDouble 32 ⟨[1], 4⟩ 2 true).data
        = (Slice.mk [1] 4).data
          ++ List.replicate ((Slice.mk [1] 4).cap - (Slice.mk [1] 4).len) (32 : Byte)
    ∧ (weightStringPadingSimple growDouble 32 ⟨[1], 4⟩ 2 true).len = (Slice.mk [1] 4).cap
    ∧ (weightStringPadingSimple growDouble 32 ⟨[1], 4⟩ 2 true).cap = (Slice.mk [1] 4).cap :=
  ⟨by decide, padding_routine growDouble 32 ⟨[1], 4⟩ 2 (by decide)⟩

/-- C17 (table lookups stay in range): with a 256-entry sort table, for all
`left`, `right` and both values of `rightIsPrefix`, `Collate` returns an
integer; no index or slice bound is out of range. -/
theorem simple_ci_collate_total (c : Collation_8bit_simple_ci) (h : c.sort.length = 256)
    (left right : List Byte) (rightIsPrefix : Bool) :
    ∃ r, c.Collate left right rightIsPrefix = some r :=
  ⟨_, Collate_eq c h left right rightIsPrefix⟩

/-- Witness of C17: the folding table, `"abc"` against `"AB"` in prefix mode. -/
theorem simple_ci_collate_total_witness :
    foldTable.length = 256
    ∧ ∃ r, (Collation_8bit_simple_ci.mk foldTable).Collate [97, 98, 99] [65, 66] true = some r :=
  ⟨foldTable_length,
    simple_ci_collate_total ⟨foldTable⟩ foldTable_length [97, 98, 99] [65, 66] true⟩

/-! ## The identity table and concatenation -/

set_option maxRecDepth 100000 in
/-- C18, as stated, fails in pad-to-max mode when the destination has to grow:
for the 33-byte input `"aaa...a"` and a `nil` destination, `Collation_8bit_bin`
appends in one step and fills a capacity of 48 (15 spaces), while the
identity-table `Collation_8bit_simple_ci` appends byte by byte and fills a
capacity of 64 (31 spaces). -/
theorem identity_table_pad_to_max_differs :
    (Collation_8bit_bin.mk []).WeightString growGo (-1) Slice.nil input33 (-1)
      = some ⟨input33 ++ List.replicate 15 32, 48⟩
    ∧ (Collation_8bit_simple_ci.mk identityTable).WeightString growGo (-1) Slice.nil
        input33 (-1)
      = some ⟨input33 ++ List.replicate 31 32, 64⟩ := by
  constructor
  · decide
  · simp only [Collation_8bit_simple_ci.WeightString, identityTable_sliceTo]
    have hsw : switchPad (-1) ((input33 : List Byte).length : Int) (-1) = (-1, 33, true) := by
      decide
    have hsl : sliceTo input33 33 = some input33 := by decide
    rw [hsw, hsl]
    simp only [input33, Collation_8bit_simple_ci.encodeLoop, identityTable_lookup]
    decide

theorem identity_weight (c : Collation_8bit_simple_ci) (h : c.sort.length = 256)
    (hid : ∀ x : Byte, c.sort[x.val]? = some x) (l : List Byte) : l.map c.weight = l := by
  have hx : ∀ x : Byte, c.weight x = x := by
    intro x
    have h1 := lookup_sort c h x
    rw [hid x] at h1
    exact (Option.some.inj h1).symm
  induction l with
  | nil => rfl
  | cons x xs ih => simp [hx, ih]

/-- C18, amended: for a `Collation_8bit_simple_ci` whose 256-entry sort table is
the identity, every `dst`, every `src` and every `numCodepoints` that is `0`,
positive or `PadToMax`, with `len(dst) + len(src) <= cap(dst)` in the
`PadToMax` case, its `WeightString(dst, src, numCodepoints)` and
`Collation_8bit_bin.WeightString(dst, src, numCodepoints)` return buffers with
the same contents. -/
theorem identity_table_matches_bin (grow : Nat → Nat → Nat) (PadToMax : Int)
    (c : Collation_8bit_simple_ci) (h : c.sort.length = 256)
    (hid : ∀ x : Byte, c.sort[x.val]? = some x) (cb : Collation_8bit_bin)
    (dst : Slice) (src : List Byte) (n : Int) (hn : 0 ≤ n ∨ n = PadToMax)
    (hcap : n = PadToMax → dst.len + src.length ≤ dst.cap) :
    ∃ r1 r2, c.WeightString grow PadToMax dst src n = some r1
      ∧ cb.WeightString grow PadToMax dst src n = some r2
      ∧ r1.data = r2.data := by
  have hw := identity_weight c h hid
  by_cases hz : n = 0
  · subst hz
    obtain ⟨r1, h1, d1⟩ := ci_zero grow PadToMax c h dst src
    obtain ⟨r2, h2, d2⟩ := bin_zero grow PadToMax cb dst src
    exact ⟨r1, r2, h1, h2, by rw [d1, d2, hw]⟩
  · by_cases hP : n = PadToMax
    · subst hP
      obtain ⟨r1, h1, ⟨k1, d1⟩, l1⟩ := ci_max grow n hz c h dst src
      obtain ⟨r2, h2, ⟨k2, d2⟩, l2⟩ := bin_max grow n hz cb dst src
      have e1 := l1 (hcap rfl)
      have e2 := l2 (hcap rfl)
      rw [hw] at d1
      have hk : k1 = k2 := by
        simp only [Slice.len, d1, d2, List.length_append, List.length_replicate] at e1 e2
        omega
      exact ⟨r1, r2, h1, h2, by rw [d1, d2, hk]⟩
    · obtain ⟨r1, h1, d1⟩ := ci_count grow PadToMax c h dst src n (by omega) hP
      obtain ⟨r2, h2, d2⟩ := bin_count grow PadToMax cb dst src n (by omega) hP
      exact ⟨r1, r2, h1, h2, by rw [d1, d2, hw]⟩

/-- Witness of the amended C18: pad-to-max (`PadToMax = -1`) of `"ab"` into a
one-byte buffer of capacity five. -/
theorem identity_table_matches_bin_witness :
    identityTable.length = 256
    ∧ (∀ x : Byte, identityTable[x.val]? = some x)
    ∧ ((0 : Int) ≤ -1 ∨ (-1 : Int) = -1)
    ∧ ((-1 : Int) = -1 → (Slice.mk [1] 5).len + ([97, 98] : List Byte).length
        ≤ (Slice.mk [1] 5).cap)
    ∧ ∃ r1 r2, (Collation_8bit_simple_ci.mk identityTable).WeightString growGo (-1) ⟨[1], 5⟩
          [97, 98] (-1) = some r1
      ∧ (Collation_8bit_bin.mk []).WeightString growGo (-1) ⟨[1], 5⟩ [97, 98] (-1) = some r2
      ∧ r1.data = r2.data :=
  ⟨identityTable_length, identityTable_lookup, by decide, by decide,
    identity_table_matches_bin growGo (-1) ⟨identityTable⟩ identityTable_length
      identityTable_lookup ⟨[]⟩ ⟨[1], 5⟩ [97, 98] (-1) (by decide) (by decide)⟩

/-- C19 (unpadded encoding distributes over concatenation): for each of the
three variants (the case-insensitive one with a 256-entry table), every `dst`
and all `a`, `b`, `WeightString(WeightString(dst, a, 0), b, 0)` has the same
contents as `WeightString(dst, a ++ b, 0)`. -/
theorem weight_string_concat (grow : Nat → Nat → Nat) (PadToMax : Int)
    (c0 : Collation_binary) (cb : Collation_8bit_bin) (c : Collation_8bit_simple_ci)
    (h : c.sort.length = 256) (dst : Slice) (a b : List Byte) :
    (∃ r1 r2 r3, c0.WeightString grow PadToMax dst a 0 = some r1
      ∧ c0.WeightString grow PadToMax r1 b 0 = some r2
      ∧ c0.WeightString grow PadToMax dst (a ++ b) 0 = some r3 ∧ r2.data = r3.data)
    ∧ (∃ r1 r2 r3, cb.WeightString grow PadToMax dst a 0 = some r1
      ∧ cb.WeightString grow PadToMax r1 b 0 = some r2
      ∧ cb.WeightString grow PadToMax dst (a ++ b) 0 = some r3 ∧ r2.data = r3.data)
    ∧ (∃ r1 r2 r3, c.WeightString grow PadToMax dst a 0 = some r1
      ∧ c.WeightString grow PadToMax r1 b 0 = some r2
      ∧ c.WeightString grow PadToMax dst (a ++ b) 0 = some r3 ∧ r2.data = r3.data) := by
  refine ⟨?_, ?_, ?_⟩
  · obtain ⟨r1, h1, d1⟩ := binary_zero grow PadToMax c0 dst a
    obtain ⟨r2, h2, d2⟩ := binary_zero grow PadToMax c0 r1 b
    obtain ⟨r3, h3, d3⟩ := binary_zero grow PadToMax c0 dst (a ++ b)
    exact ⟨r1, r2, r3, h1, h2, h3, by rw [d2, d1, d3, List.append_assoc]⟩
  · obtain ⟨r1, h1, d1⟩ := bin_zero grow PadToMax cb dst a
    obtain ⟨r2, h2, d2⟩ := bin_zero grow PadToMax cb r1 b
    obtain ⟨r3, h3, d3⟩ := bin_zero grow PadToMax cb dst (a ++ b)
    exact ⟨r1, r2, r3, h1, h2, h3, by rw [d2, d1, d3, List.append_assoc]⟩
  · obtain ⟨r1, h1, d1⟩ := ci_zero grow PadToMax c h dst a
    obtain ⟨r2, h2, d2⟩ := ci_zero grow PadToMax c h r1 b
    obtain ⟨r3, h3, d3⟩ := ci_zero grow PadToMax c h dst (a ++ b)
    exact ⟨r1, r2, r3, h1, h2, h3, by rw [d2, d1, d3, List.map_append, List.append_assoc]⟩

/-- Witness of C19: `"ab"` then `"C"` appended to a one-byte buffer. -/
theorem weight_string_concat_witness :
    foldTable.length = 256
    ∧ (∃ r1 r2 r3, Collation_binary.WeightString growDouble (-1) ⟨⟩ ⟨[1], 1⟩ [97, 98] 0 = some r1
      ∧ Collation_binary.WeightString growDouble (-1) ⟨⟩ r1 [67] 0 = some r2
      ∧ Collation_binary.WeightString growDouble (-1) ⟨⟩ ⟨[1], 1⟩ ([97, 98] ++ [67]) 0 = some r3
      ∧ r2.data = r3.data)
    ∧ (∃ r1 r2 r3, (Collation_8bit_bin.mk []).WeightString growDouble (-1) ⟨[1], 1⟩ [97, 98] 0
        = some r1
      ∧ (Collation_8bit_bin.mk []).WeightString growDouble (-1) r1 [67] 0 = some r2
      ∧ (Collation_8bit_bin.mk []).WeightString growDouble (-1) ⟨[1], 1⟩ ([97, 98] ++ [67]) 0
        = some r3
      ∧ r2.data = r3.data)
    ∧ (∃ r1 r2 r3, (Collation_8bit_simple_ci.mk foldTable).WeightString growDouble (-1)
        ⟨[1], 1⟩ [97, 98] 0 = some r1
      ∧ (Collation_8bit_simple_ci.mk foldTable).WeightString growDouble (-1) r1 [67] 0 = some r2
      ∧ (Collation_8bit_simple_ci.mk foldTable).WeightString growDouble (-1) ⟨[1], 1⟩
        ([97, 98] ++ [67]) 0 = some r3
      ∧ r2.data = r3.data) :=
  ⟨foldTable_length,
    weight_string_concat growDouble (-1) ⟨⟩ ⟨[]⟩ ⟨foldTable⟩ foldTable_length ⟨[1], 1⟩
      [97, 98] [67]⟩

end Collations
